import Mathlib

/-!
Verification of the annotator's anchoring and marking engine.

The development shallowly embeds the core of the annotator:
* the text extractor / position mapper (`dom-text-mapper`),
* the four-strategy anchoring resolver (`anchoring` / `anchorer`),
* the structure-preserving highlight marker (`highlighter`).

JS strings are modelled as `List Char`; JS nonnegative integer offsets as
`Nat` (every offset handled by this code is a character index, and the
clamping `Math.max(0, a - b)` coincides with truncated `Nat` subtraction).
DOM nodes are referenced by their path of child indices from the root.
-/

namespace Annotator

/-- Characters of a JS string. -/
abbrev Chars := List Char

/-- JS `String.prototype.trim`: strip leading and trailing whitespace. -/
def trimChars (s : Chars) : Chars :=
  ((s.dropWhile Char.isWhitespace).reverse.dropWhile Char.isWhitespace).reverse

/-- JS `s.slice(a, b)` for nonnegative `a`, `b`: the characters in `[a, b)`. -/
def sliceChars (s : Chars) (a b : Nat) : Chars :=
  (s.drop a).take (b - a)

/-- JS `s.slice(a)` (to the end of the string). -/
def sliceFrom (s : Chars) (a : Nat) : Chars :=
  s.drop a

/-- The space character (code point 32). -/
def spaceChar : Char := Char.ofNat 32

/-- The loop of `s.replace(/\s+/g, ' ')`: the first character of every
whitespace run becomes one space, the rest of the run is dropped; `inRun`
remembers whether the previous character was whitespace. -/
def collapseWsAux : Bool → Chars → Chars
  | _, [] => []
  | inRun, c :: rest =>
    if c.isWhitespace then
      if inRun then collapseWsAux true rest
      else spaceChar :: collapseWsAux true rest
    else c :: collapseWsAux false rest

/-- JS `s.replace(/\s+/g, ' ')`: collapse every whitespace run to one space. -/
def collapseWs (s : Chars) : Chars := collapseWsAux false s

/-- `normalizeWhitespace` from `anchoring.ts`: collapse whitespace runs, then trim. -/
def normalizeWs (s : Chars) : Chars :=
  trimChars (collapseWs s)

/-- JS `doc.indexOf(needle)`: the least index at which `needle` occurs. -/
def firstIdx : Chars → Chars → Option Nat
  | d, needle =>
    if needle.isPrefixOf d then some 0
    else
      match d with
      | [] => none
      | _ :: t => (firstIdx t needle).map (· + 1)

/-- The search loop shared by `findAllNeedleMatches` and `findAllExactMatches`:
repeatedly `idx = doc.indexOf(needle, from)`, record `(idx, idx + needle.length)`
and restart from `idx + 1`.  `fuel` bounds the number of iterations; with
`fuel = doc.length + 1` it never runs out, because the start index strictly
increases and a nonempty needle can only occur at indices `< doc.length`. -/
def findAllAux (doc needle : Chars) : Nat → Nat → List (Nat × Nat)
  | 0, _ => []
  | fuel + 1, start =>
    match firstIdx (doc.drop start) needle with
    | none => []
    | some i =>
      (start + i, start + i + needle.length) ::
        findAllAux doc needle fuel (start + i + 1)

/-- `findAllNeedleMatches(documentText, needle)` from `anchoring.ts`. -/
def findAllNeedleMatches (doc needle : Chars) : List (Nat × Nat) :=
  findAllAux doc needle (doc.length + 1) 0

/-- `findAllExactMatches(documentText, exact)` from `anchoring.ts`:
trims the quote, returns `[]` for an all-whitespace quote, else all matches. -/
def findAllExactMatches (doc exact : Chars) : List (Nat × Nat) :=
  let trimmed := trimChars exact
  if trimmed = [] then []
  else findAllNeedleMatches doc trimmed

/-! ### The position mapper (`dom-text-mapper.ts`)

A `Segment` is one entry of the mapper's segment table: a character range
`[segStart, segStop)` of the document text together with the text node that
carries it (`path` = child-index path from the root, `nodeText` = the node's
own text, whose length is `seg.node.length` in the source). -/

/-- A boundary point: the path of a node and an offset inside it
(character offset for a text node, child index for an element). -/
abbrev BPoint := List Nat × Nat

/-- A range as the DOM holds it: start and end boundary points. -/
abbrev BRange := BPoint × BPoint

structure Segment where
  segStart : Nat
  segStop : Nat
  path : List Nat
  nodeText : Chars
deriving Repr, DecidableEq

/-- Build the segment table from the document-order list of text leaves
(each a path plus its text), accumulating offsets — the zip step of `build`. -/
def segsOfLeaves : List (List Nat × Chars) → Nat → List Segment
  | [], _ => []
  | (p, t) :: rest, pos =>
    ⟨pos, pos + t.length, p, t⟩ :: segsOfLeaves rest (pos + t.length)

/-- Total text length covered by a segment table that starts at `pos`. -/
def segsTotal : Nat → List Segment → Nat
  | pos, [] => pos
  | _, seg :: rest => segsTotal seg.segStop rest

/-- The segment table is contiguous from `pos` and each segment's extent
equals its node's text length (true of every table `build` produces). -/
def segsChainB : Nat → List Segment → Bool
  | _, [] => true
  | pos, seg :: rest =>
    seg.segStart = pos && seg.segStop = pos + seg.nodeText.length &&
      segsChainB seg.segStop rest

/-- DOM `setStart`/`setEnd` adjustment for the range built by
`offsetsToRange`: the start is set first, and `setEnd` to a boundary before
the current start collapses the range at that boundary.  In the scan the end
boundary lies in the start's segment or a later one, so an earlier boundary
is only possible inside the same node, at a smaller offset. -/
def domAdjust (b1 b2 : BPoint) : BPoint × BPoint :=
  if b1.1 = b2.1 ∧ b2.2 < b1.2 then (b2, b2) else (b1, b2)

/-- The scan of `mapper.offsetsToRange(start, end)`: walk the segments in
order; the first segment with `start <= seg.end` receives the start boundary
at local offset `max(0, min(start - seg.start, seg.node.length))`, the first
with `end <= seg.end` receives the end boundary and stops the walk; `null`
unless both boundaries were placed.  The accumulator is the placed start. -/
def offsetsToRangeLoop : List Segment → Nat → Nat → Option BPoint → Option BRange
  | [], _, _, _ => none
  | seg :: rest, s, e, st =>
    let st' := if st = none ∧ s ≤ seg.segStop then
        some (seg.path, min (s - seg.segStart) seg.nodeText.length) else st
    if e ≤ seg.segStop then
      match st' with
      | none => none
      | some b1 => some (domAdjust b1 (seg.path, min (e - seg.segStart) seg.nodeText.length))
    else offsetsToRangeLoop rest s e st'

/-- `mapper.offsetsToRange` from `dom-text-mapper.ts`. -/
def offsetsToRange (segs : List Segment) (s e : Nat) : Option BRange :=
  offsetsToRangeLoop segs s e none

/-- `positionToOffset(segments, container, offset)` from `dom-text-mapper.ts`:
the first segment owning `container` maps the position to
`seg.start + min(offset, seg.node.length)`. -/
def positionToOffset : List Segment → List Nat → Nat → Option Nat
  | [], _, _ => none
  | seg :: rest, p, off =>
    if seg.path = p then some (seg.segStart + min off seg.nodeText.length)
    else positionToOffset rest p off

/-- `mapper.rangeToOffsets(range)` from `dom-text-mapper.ts`, for ranges whose
containers are text nodes (`normalizeToTextPosition` is then the identity up
to clamping, which `positionToOffset` repeats).  Failure yields `(0, 0)` as in
the source. -/
def rangeToOffsets (segs : List Segment) (r : BRange) : Nat × Nat :=
  match positionToOffset segs r.1.1 r.1.2, positionToOffset segs r.2.1 r.2.2 with
  | some s, some e => (s, e)
  | _, _ => (0, 0)

/-! ### Quote matching and disambiguation (`anchoring.ts`)

The source scores candidates with JS numbers, where the candidate midpoint
`(start + end) / 2` can be a half-integer.  Here every score and distance is
stored *doubled* (bonus 20 per matching context side instead of 10, position
bonus `max(0, 200 - |start + end - 2·hint|)` instead of
`max(0, 100 - |midpoint - hint|)`): an exact, order-preserving integer
encoding, so every comparison the algorithm makes is unchanged. -/

/-- `TextQuoteSelector`: exact selected text plus surrounding context.
Fields `pre`/`suf` are the source's `prefix`/`suffix`. -/
structure TextQuoteSel where
  exact : Chars
  pre : Chars
  suf : Chars
deriving Repr, DecidableEq

/-- Options of `pickBestMatch` (`prefix`/`suffix` default to `''`). -/
structure PickOptions where
  positionHint : Option Nat
  pre : Chars
  suf : Chars
deriving Repr, DecidableEq

/-- One entry of the `scores` array built by `pickBestMatch`
(the debug-only string fields `before`/`after`/`context` are omitted;
`score` is doubled as explained above). -/
structure ScoreEntry where
  idx : Nat
  mStart : Nat
  mStop : Nat
  score : Nat
  preMatch : Bool
  sufMatch : Bool
deriving Repr, DecidableEq

/-- Doubled distance of a candidate's midpoint from the hint:
`|start + end - 2·hint|` is twice `|(start + end)/2 - hint|`. -/
def dist2 (h : Nat) (m : Nat × Nat) : Nat :=
  (((m.1 : Int) + (m.2 : Int)) - 2 * (h : Int)).natAbs

/-- The per-candidate scoring of `pickBestMatch`: `before`/`after` slices,
`prefixMatch`/`suffixMatch` tests, a (doubled) bonus of 20 per matching
side, and, when a position hint exists, the (doubled) bonus
`max(0, 200 - dist2)` — truncated `Nat` subtraction is exactly `max(0, ·)`. -/
def scoreParts (doc : Chars) (opts : PickOptions) (m : Nat × Nat) : Nat × Bool × Bool :=
  let before := sliceChars doc (m.1 - opts.pre.length) m.1
  let after := sliceChars doc m.2 (min doc.length (m.2 + opts.suf.length))
  let preMatch : Bool :=
    decide (opts.pre.length = 0) ||
      (trimChars opts.pre).isSuffixOf (trimChars before) || decide (before = opts.pre)
  let sufMatch : Bool :=
    decide (opts.suf.length = 0) ||
      (trimChars opts.suf).isPrefixOf (trimChars after) || opts.suf.isPrefixOf after
  let base : Nat := (if preMatch then 20 else 0) + (if sufMatch then 20 else 0)
  let score : Nat :=
    match opts.positionHint with
    | none => base
    | some h => base + (200 - dist2 h m)
  (score, preMatch, sufMatch)

/-- The `scores` array of `pickBestMatch`, one entry per match in order. -/
def mkScores (doc : Chars) (opts : PickOptions) (ms : List (Nat × Nat)) :
    List ScoreEntry :=
  ms.enum.map fun im =>
    let parts := scoreParts doc opts im.2
    ⟨im.1, im.2.1, im.2.2, parts.1, parts.2.1, parts.2.2⟩

/-- `candidates.reduce((a, b) => da <= db ? a : b)`: the first candidate at
minimal midpoint distance from the hint. -/
def nearestReduce (h : Nat) : List (Nat × Nat) → Option (Nat × Nat)
  | [] => none
  | m :: rest =>
    some (rest.foldl (fun a b => if dist2 h a ≤ dist2 h b then a else b) m)

/-- Placeholder entry for the source's `scores[0]!` fallback lookup. -/
def dummyScore : ScoreEntry := ⟨0, 0, 0, 0, false, false⟩

/-- The `candidates` array of `pickBestMatch`: when context is given and some
score entry matches both prefix and suffix, restrict to those entries
(indexed back into `matches`). -/
def pbmCandidates (doc : Chars) (opts : PickOptions) (ms : List (Nat × Nat)) :
    List (Nat × Nat) :=
  let haveContext := opts.pre.length > 0 ∨ opts.suf.length > 0
  let withContext := (mkScores doc opts ms).filter fun s => s.preMatch && s.sufMatch
  if haveContext ∧ withContext ≠ [] then
    withContext.map fun s => ms.getD s.idx (0, 0)
  else ms

/-- The `best`/`bestScore` fold of `pickBestMatch`: each candidate's score
is looked up in `scores` by its offsets (`?? scores[0]!` as fallback), and a
strictly greater score replaces the current best (initially `null`/`-1`). -/
def pbmFold (doc : Chars) (opts : PickOptions) (ms cands : List (Nat × Nat)) :
    Option (Nat × Nat) × Int :=
  let scores := mkScores doc opts ms
  cands.foldl
    (fun acc m =>
      let sc := ((scores.find? fun x =>
          decide (x.mStart = m.1) && decide (x.mStop = m.2)).getD
            (scores.headD dummyScore)).score
      if acc.2 < (sc : Int) then (some m, (sc : Int)) else acc)
    (none, -1)

/-- `pickBestMatch(matches, documentText, options)` from `anchoring.ts`
(the variant with the prefix+suffix subset filter and the zero-score
nearest-to-hint fallback). -/
def pickBestMatch (ms : List (Nat × Nat)) (doc : Chars) (opts : PickOptions) :
    Option (Nat × Nat) :=
  if ms.length = 0 then none
  else if ms.length = 1 then ms.head?
  else
    let candidates := pbmCandidates doc opts ms
    let folded := pbmFold doc opts ms candidates
    let best :=
      if folded.2 ≤ 0 ∧ candidates ≠ [] ∧ opts.positionHint.isSome then
        match opts.positionHint with
        | some h => nearestReduce h candidates
        | none => folded.1
      else folded.1
    match best with
    | some b => some b
    | none => ms.head?

/-! ### Whitespace-normalized offset mapping -/

/-- Span construction of `normalizedToOriginalOffsets`: after skipping
leading whitespace, each whitespace run contributes one span covering the
run and each other character contributes the span `(o, o+1)`; a trailing run
contributes `(runStart, original.length)`.  `o` is the current index,
the `Option Nat` is the pending `runStart`. -/
def ntooBuild : List Char → Nat → Option Nat → List (Nat × Nat)
  | [], o, some r => [(r, o)]
  | [], _, none => []
  | c :: rest, o, runStart =>
    if c.isWhitespace then
      match runStart with
      | some r => ntooBuild rest (o + 1) (some r)
      | none => ntooBuild rest (o + 1) (some o)
    else
      match runStart with
      | some r => (r, o) :: (o, o + 1) :: ntooBuild rest (o + 1) none
      | none => (o, o + 1) :: ntooBuild rest (o + 1) none

/-- The `spans` array of `normalizedToOriginalOffsets`. -/
def ntooSpans (orig : Chars) : List (Nat × Nat) :=
  let lead := (orig.takeWhile Char.isWhitespace).length
  ntooBuild (orig.drop lead) lead none

/-- `normalizedToOriginalOffsets(original, normStart, normEnd)` from
`anchoring.ts`: map whitespace-normalized indices back to the original. -/
def normalizedToOriginalOffsets (orig : Chars) (normStart normEnd : Nat) : Nat × Nat :=
  let spans := ntooSpans orig
  if normStart ≥ spans.length then (0, 0)
  else
    let startOriginal := (spans.getD normStart (0, 0)).1
    let endIdx := min normEnd spans.length
    let endOriginal :=
      if normStart < endIdx then (spans.getD (endIdx - 1) (0, 0)).2 else startOriginal
    (startOriginal, endOriginal)

/-! ### Strategies 3 and 4 (`anchorFromQuoteContext`, `anchorFromQuoteOnly`) -/

/-- `anchorFromQuoteContext(documentText, quote, hintStart, fuzzy)` from
`anchoring.ts`.  Note that the source trims `exact`, `prefix` and `suffix`
before concatenating them into the search needle. -/
def anchorFromQuoteContext (doc : Chars) (q : TextQuoteSel)
    (hintStart : Option Nat) (fuzzy : Bool) : Option (Nat × Nat) :=
  let exact := trimChars q.exact
  if exact = [] then none
  else
    let pre := trimChars q.pre
    let suf := trimChars q.suf
    let needle := pre ++ exact ++ suf
    let ms := findAllNeedleMatches doc needle
    if ms = [] ∧ fuzzy then
      let normDoc := normalizeWs doc
      let normNeedle := normalizeWs needle
      let normPre := normalizeWs pre
      let normExact := normalizeWs exact
      match firstIdx normDoc normNeedle with
      | none => none
      | some nIdx =>
        some (normalizedToOriginalOffsets doc (nIdx + normPre.length)
          (nIdx + normPre.length + normExact.length))
    else if ms = [] then none
    else
      match ms with
      | [m] => some (m.1 + pre.length, m.1 + pre.length + exact.length)
      | _ =>
        match pickBestMatch ms doc ⟨hintStart, [], []⟩ with
        | none => none
        | some best => some (best.1 + pre.length, best.1 + pre.length + exact.length)

/-- The leading regex test of `anchorFromQuoteOnly`:
`/^"[^"]*"$/.test(trimmed)` strips a full double-quote wrapper and re-trims. -/
def stripQuotedWrapper (t : Chars) : Chars :=
  if 2 ≤ t.length ∧ t.head? = some '"' ∧ t.getLast? = some '"' ∧
      ∀ c ∈ (t.drop 1).dropLast, c ≠ '"' then
    trimChars ((t.drop 1).dropLast)
  else t

/-- Options of `anchorFromQuoteOnly` (`startFromOffset` defaults to `0`;
`pre`/`suf` are the source's optional `prefix`/`suffix`). -/
structure QuoteOnlyOptions where
  startFromOffset : Nat
  positionHint : Option Nat
  pre : Option Chars
  suf : Option Chars
deriving Repr, DecidableEq

/-- `anchorFromQuoteOnly(documentText, exact, options)` from `anchoring.ts`
(the variant that also unwraps a fully double-quoted `exact`). -/
def anchorFromQuoteOnly (doc : Chars) (exact : Chars) (opts : QuoteOnlyOptions) :
    Option (Nat × Nat) :=
  let trimmed := stripQuotedWrapper (trimChars exact)
  if trimmed = [] then none
  else
    let ms := findAllExactMatches doc trimmed
    match ms with
    | [] =>
      let normDoc := normalizeWs doc
      let normQuote := normalizeWs trimmed
      match firstIdx normDoc normQuote with
      | none => none
      | some nIdx => some (normalizedToOriginalOffsets doc nIdx (nIdx + normQuote.length))
    | [m] => some m
    | _ =>
      match pickBestMatch ms doc ⟨opts.positionHint, opts.pre.getD [], opts.suf.getD []⟩ with
      | some best => some best
      | none =>
        -- `positionHint == null && !prefix && !suffix && startFromOffset !== undefined`
        -- (the last conjunct always holds: the destructuring defaulted it to 0)
        if opts.positionHint = none ∧ opts.pre.getD [] = [] ∧ opts.suf.getD [] = [] then
          match firstIdx (doc.drop opts.startFromOffset) trimmed with
          | some i =>
            some (opts.startFromOffset + i, opts.startFromOffset + i + trimmed.length)
          | none => ms.head?
        else ms.head?


/-! ### Claim C4: disambiguation (`pickBestMatch`) -/

/-- Score of a candidate: the first component of `scoreParts`. -/
def scoreOf (doc : Chars) (opts : PickOptions) (m : Nat × Nat) : Nat :=
  (scoreParts doc opts m).1

/-- A candidate whose context matches on both sides. -/
def bothMatch (doc : Chars) (opts : PickOptions) (m : Nat × Nat) : Bool :=
  (scoreParts doc opts m).2.1 && (scoreParts doc opts m).2.2

/-- First element attaining the maximal value of `f` (a strict-improvement
fold keeps the earlier element on ties). -/
def argmaxFirst {α : Type} (f : α → Nat) : List α → Option α
  | [] => none
  | x :: xs => some (xs.foldl (fun a b => if f a < f b then b else a) x)

/-- Declarative restatement of `pickBestMatch`: singletons short-circuit;
otherwise, when context is given and some candidate matches both sides, the
choice is restricted to those candidates; the winner is the first candidate
of maximal score, except that when every considered score is zero and a
position hint exists the first candidate nearest the hint wins. -/
def pickBestMatchSpec (ms : List (Nat × Nat)) (doc : Chars) (opts : PickOptions) :
    Option (Nat × Nat) :=
  if ms.length = 0 then none
  else if ms.length = 1 then ms.head?
  else
    let haveContext := opts.pre.length > 0 ∨ opts.suf.length > 0
    let strong := ms.filter (bothMatch doc opts)
    let cands := if haveContext ∧ strong ≠ [] then strong else ms
    if (∀ m ∈ cands, scoreOf doc opts m = 0) ∧ opts.positionHint.isSome then
      match opts.positionHint with
      | some h => nearestReduce h cands
      | none => none
    else argmaxFirst (scoreOf doc opts) cands

/-! ### The document tree

A minimal DOM: an element has a (lowercase) tag, attributes and children; a
text node carries its characters.  Nodes are referenced by their child-index
path from the root. -/

inductive DNode where
  | text : Chars → DNode
  | elem : String → List (String × String) → List DNode → DNode
deriving Repr

mutual
/-- All text leaves under a node in document order with their relative
paths — the unfiltered walk used by `walkTextUntil` and `Range.toString`. -/
def textLeaves : DNode → List (List Nat × Chars)
  | .text s => [([], s)]
  | .elem _ _ cs => textLeavesList cs 0

def textLeavesList : List DNode → Nat → List (List Nat × Chars)
  | [], _ => []
  | c :: rest, i =>
    (textLeaves c).map (fun pt => (i :: pt.1, pt.2)) ++ textLeavesList rest (i + 1)
end

mutual
/-- `walkDomTextNodes`: all text leaves in document order, skipping
`script`/`style`/`noscript` subtrees (the skip test is on each visited
child, never on the walk root itself). -/
def visibleLeaves : DNode → List (List Nat × Chars)
  | .text s => [([], s)]
  | .elem tag _ cs =>
    if tag = "script" ∨ tag = "style" ∨ tag = "noscript" then []
    else visibleLeavesList cs 0

def visibleLeavesList : List DNode → Nat → List (List Nat × Chars)
  | [], _ => []
  | c :: rest, i =>
    (visibleLeaves c).map (fun pt => (i :: pt.1, pt.2)) ++ visibleLeavesList rest (i + 1)
end

/-- The DOM walk of `build`: iterate the root's children (the root's own
tag is never tested); a text root has no children. -/
def buildLeaves : DNode → List (List Nat × Chars)
  | .text _ => []
  | .elem _ _ cs => visibleLeavesList cs 0

/-- The zip step of `build`: offsets from the parsed texts, nodes from the
DOM walk, in document order. -/
def zipSegs : List Chars → List (List Nat × Chars) → Nat → List Segment
  | t :: ts, (p, nt) :: rest, pos =>
    ⟨pos, pos + t.length, p, nt⟩ :: zipSegs ts rest (pos + t.length)
  | _, _, _ => []

/-- `build(root)` from `dom-text-mapper.ts`, with `parse(serialize(root))`
modelled as the identity on the tree: the parsed walk yields the *nonempty*
visible text contents, the DOM walk all visible text nodes; when the counts
agree they are zipped, else text and segments are rebuilt from the DOM walk
alone (the divergence fallback). -/
def build (root : DNode) : Chars × List Segment :=
  let domNodes := buildLeaves root
  let parsedTexts := (domNodes.map Prod.snd).filter fun t => ¬ t = []
  if parsedTexts.length = domNodes.length then
    (parsedTexts.flatten, zipSegs parsedTexts domNodes 0)
  else
    ((domNodes.map Prod.snd).flatten, segsOfLeaves domNodes 0)

/-- DOM boundary-point comparison (`compareBoundaryPoints` order) on
(path, offset) pairs, curried for structural recursion: within one node
compare offsets; an ancestor boundary at offset `o` precedes everything
inside child `c` iff `o ≤ c`; otherwise compare diverging child indices. -/
def bpCompareAux : List Nat → Nat → List Nat → Nat → Ordering
  | [], o1, [], o2 => compare o1 o2
  | [], o1, c :: _, _ => if o1 ≤ c then .lt else .gt
  | c :: _, _, [], o2 => if o2 ≤ c then .gt else .lt
  | a :: p1, o1, b :: p2, o2 =>
    if a < b then .lt else if b < a then .gt else bpCompareAux p1 o1 p2 o2

/-- DOM boundary-point comparison on boundary points. -/
def bpCompare (b1 b2 : BPoint) : Ordering :=
  bpCompareAux b1.1 b1.2 b2.1 b2.2

/-- The subtree at a child-index path. -/
def subtreeAt : DNode → List Nat → Option DNode
  | t, [] => some t
  | .text _, _ :: _ => none
  | .elem _ _ cs, i :: p =>
    match cs.get? i with
    | some c => subtreeAt c p
    | none => none

/-! ### Selector resolution (`selectors.ts`) -/

/-- The child index (into all children) of the `need`-th (1-based) element
child carrying `tag` — the sibling-tag-index step of `nodeFromXPath`. -/
def nthSameTagChild : List DNode → String → Nat → Nat → Option Nat
  | [], _, _, _ => none
  | c :: rest, tag, need, i =>
    match c with
    | .elem t _ _ =>
      if t = tag then
        if need = 1 then some i
        else nthSameTagChild rest tag (need - 1) (i + 1)
      else nthSameTagChild rest tag need (i + 1)
    | .text _ => nthSameTagChild rest tag need (i + 1)

/-- `nodeFromXPath(root, xpath)` with the XPath string represented by its
parsed steps (lowercase tag, 1-based index among same-tag element
children); the source's regex parsing of `"tag[i]"` segments is elided.
Returns the path of the resolved element (`[]` is the root itself);
`index < 1` or a missing step resolves to `null`. -/
def nodeFromXPath : List (String × Nat) → DNode → Option (List Nat)
  | [], _ => some []
  | (tag, idx) :: rest, node =>
    match node with
    | .text _ => none
    | .elem _ _ cs =>
      if idx < 1 then none
      else
        match nthSameTagChild cs tag idx 0 with
        | none => none
        | some i =>
          match cs.get? i with
          | none => none
          | some c => (nodeFromXPath rest c).map fun p => i :: p

/-- The walk of `offsetInElementToDomPosition` (`walkTextUntil`): place the
character offset in the first text node with `charOffset <= pos + len`. -/
def offsetInLeaves : List (List Nat × Chars) → Nat → Nat → Option (List Nat × Nat)
  | [], _, _ => none
  | (p, t) :: rest, pos, c =>
    if c ≤ pos + t.length then some (p, min (c - pos) t.length)
    else offsetInLeaves rest (pos + t.length) c

/-- `offsetInElementToDomPosition(element, charOffset)`: a character offset
within an element's whole text to a (text node, offset) position. -/
def offsetInElementToDomPosition (el : DNode) (charOffset : Nat) :
    Option (List Nat × Nat) :=
  offsetInLeaves (textLeaves el) 0 charOffset

/-! ### Ranges over the tree -/

/-- The unfiltered leaf table of the whole tree. -/
def fullSegs (root : DNode) : List Segment :=
  segsOfLeaves (textLeaves root) 0

/-- The unfiltered flat text of the whole tree. -/
def fullText (root : DNode) : Chars :=
  ((textLeaves root).map Prod.snd).flatten

/-- Global full-walk offset of a text-node boundary. -/
def globalOffset (root : DNode) (b : BPoint) : Option Nat :=
  positionToOffset (fullSegs root) b.1 b.2

/-- `range.toString()` for a range with text-node boundaries: the document
text between the two boundary positions (DOM `Range.toString` concatenates
the text of *all* text nodes between the boundaries, with no filtering). -/
def rangeToString (root : DNode) (r : BRange) : Chars :=
  match globalOffset root r.1, globalOffset root r.2 with
  | some g1, some g2 => sliceChars (fullText root) g1 g2
  | _, _ => []

/-- Build a range with `setStart` then `setEnd`: DOM `setEnd` to a boundary
before the current start collapses the range at that boundary. -/
def mkDomRange (b1 b2 : BPoint) : BRange :=
  if bpCompare b2 b1 = .lt then (b2, b2) else (b1, b2)

/-! ### Strategies 1 and 2 and the Anchorer (`anchoring.ts`, `anchorer.ts`) -/

/-- `RangeSelector`: XPath (as parsed steps) to the elements containing the
boundaries, plus character offsets within those elements' text.
`startPath`/`endPath` are the source's `start`/`end` strings. -/
structure RangeSel where
  startPath : List (String × Nat)
  endPath : List (String × Nat)
  startOffset : Nat
  endOffset : Nat
deriving Repr, DecidableEq

/-- `TextPositionSelector`; `stop` is the source's `end`. -/
structure TextPositionSel where
  start : Nat
  stop : Nat
deriving Repr, DecidableEq

/-- `anchorFromRangeSelector(selector, root, expectedQuote)`: resolve both
XPaths, convert the in-element offsets to text positions, build the range,
and reject it when a quote is present and the trimmed range text differs
from the trimmed quote.  `getRootElement` restricts to element roots (a
document is modelled by its body element). -/
def anchorFromRangeSelector (sel : RangeSel) (root : DNode)
    (expectedQuote : Option Chars) : Option BRange :=
  match root with
  | .text _ => none
  | .elem _ _ _ =>
    match nodeFromXPath sel.startPath root, nodeFromXPath sel.endPath root with
    | some ps, some pe =>
      match subtreeAt root ps, subtreeAt root pe with
      | some startEl, some endEl =>
        match offsetInElementToDomPosition startEl sel.startOffset,
            offsetInElementToDomPosition endEl sel.endOffset with
        | some sp, some ep =>
          let range := mkDomRange (ps ++ sp.1, sp.2) (pe ++ ep.1, ep.2)
          match expectedQuote with
          | some q =>
            if trimChars (rangeToString root range) ≠ trimChars q then none
            else some range
          | none => some range
        | _, _ => none
      | _, _ => none
    | _, _ => none

/-- `anchorFromTextPositionSelector(selector, mapper, _expectedQuote)`: the
expected quote is accepted but ignored. -/
def anchorFromTextPositionSelector (sel : TextPositionSel) (segs : List Segment)
    (_expectedQuote : Option Chars) : Option BRange :=
  offsetsToRange segs sel.start sel.stop

/-- The selector field of an annotation's target; `rangeSel` is the
source's `selector.range`. -/
structure SelectorSet where
  rangeSel : Option RangeSel
  textPosition : Option TextPositionSel
  textQuote : Option TextQuoteSel
deriving Repr, DecidableEq

inductive AnchoringStrategy where
  | range
  | position
  | quoteContext
  | quoteOnly
deriving Repr, DecidableEq

/-- `AnchorResult`: a resolved range plus the winning strategy, or a
definitive error message. -/
inductive AnchorResult where
  | ok : BRange → AnchoringStrategy → AnchorResult
  | fail : String → AnchorResult
deriving Repr, DecidableEq

/-- The `AnchorContext`: document text plus the mapper's segment table. -/
structure AnchorContext where
  text : Chars
  segs : List Segment
deriving Repr, DecidableEq

/-- `Anchorer.disambiguateQuote(range, expectedQuote, text, mapper,
selector)`: with several exact-quote occurrences, move the range to the
best-scoring one unless it already is that one (the model's
`rangeToOffsets` is total, so the source's `try/catch` has no failing
path). -/
def disambiguateQuote (range : BRange) (expectedQuote : Chars) (text : Chars)
    (segs : List Segment) (sel : SelectorSet) : BRange :=
  let ms := findAllExactMatches text expectedQuote
  if ms.length ≤ 1 then range
  else
    let off := rangeToOffsets segs range
    let best := pickBestMatch ms text
      ⟨sel.textPosition.map TextPositionSel.start,
       (sel.textQuote.map TextQuoteSel.pre).getD [],
       (sel.textQuote.map TextQuoteSel.suf).getD []⟩
    match best with
    | none => range
    | some b =>
      if b.1 = off.1 ∧ b.2 = off.2 then range
      else
        match offsetsToRange segs b.1 b.2 with
        | some r => r
        | none => range

/-- Strategy-1 attempt of `Anchorer.anchor`: Range selector present,
resolved, and not collapsed. -/
def anchorAtt1 (sel : SelectorSet) (root : DNode) : Option BRange :=
  match sel.rangeSel with
  | none => none
  | some rs =>
    match anchorFromRangeSelector rs root
        (sel.textQuote.map fun q => trimChars q.exact) with
    | none => none
    | some range => if range.1 = range.2 then none else some range

/-- Strategy-2 attempt: Position selector present, mapped, not collapsed. -/
def anchorAtt2 (sel : SelectorSet) (ctx : AnchorContext) : Option BRange :=
  match sel.textPosition with
  | none => none
  | some ps =>
    match anchorFromTextPositionSelector ps ctx.segs
        (sel.textQuote.map fun q => trimChars q.exact) with
    | none => none
    | some range => if range.1 = range.2 then none else some range

/-- Strategy-3 attempt: nonempty text and a Quote selector; context search,
then offsets mapped to a non-collapsed range. -/
def anchorAtt3 (sel : SelectorSet) (ctx : AnchorContext) : Option BRange :=
  match sel.textQuote with
  | none => none
  | some q =>
    if ctx.text ≠ [] then
      match anchorFromQuoteContext ctx.text q
          (sel.textPosition.map TextPositionSel.start) true with
      | none => none
      | some off =>
        match offsetsToRange ctx.segs off.1 off.2 with
        | none => none
        | some range => if range.1 = range.2 then none else some range
    else none

/-- Strategy-4 attempt: nonempty text and a truthy `quote.exact`;
quote-only search, then offsets mapped to a non-collapsed range. -/
def anchorAtt4 (sel : SelectorSet) (ctx : AnchorContext) : Option BRange :=
  match sel.textQuote with
  | none => none
  | some q =>
    if ctx.text ≠ [] ∧ q.exact ≠ [] then
      match anchorFromQuoteOnly ctx.text q.exact
          ⟨0, sel.textPosition.map TextPositionSel.start, some q.pre, some q.suf⟩ with
      | none => none
      | some off =>
        match offsetsToRange ctx.segs off.1 off.2 with
        | none => none
        | some range => if range.1 = range.2 then none else some range
    else none

/-- The error message of the all-fail branch of `Anchorer.anchor`. -/
def anchorFailMsg : String :=
  "All four anchoring strategies failed (range, position, quote-context, quote-only)"

/-- `Anchorer.anchor(annotation, root, context)` (the anchorer's four-
strategy cascade, each strategy's guard and collapse test inlined in its
`anchorAttN`): the first strategy producing a valid non-collapsed range
wins; strategies 1 and 2 re-run quote disambiguation when a nonempty
trimmed quote and text are available. -/
def anchor (sel : SelectorSet) (root : DNode) (ctx : AnchorContext) : AnchorResult :=
  let expectedQuote := (sel.textQuote.map fun q => trimChars q.exact).getD []
  match anchorAtt1 sel root with
  | some range =>
    .ok (if expectedQuote ≠ [] ∧ ctx.text ≠ [] then
        disambiguateQuote range expectedQuote ctx.text ctx.segs sel
      else range) .range
  | none =>
    match anchorAtt2 sel ctx with
    | some range =>
      .ok (if expectedQuote ≠ [] ∧ ctx.text ≠ [] then
          disambiguateQuote range expectedQuote ctx.text ctx.segs sel
        else range) .position
    | none =>
      match anchorAtt3 sel ctx with
      | some range => .ok range .quoteContext
      | none =>
        match anchorAtt4 sel ctx with
        | some range => .ok range .quoteOnly
        | none => .fail anchorFailMsg

/-! ### Concrete example documents used by witnesses -/

/-- `<div>abcdef</div>` -/
def exRoot1 : DNode := .elem "div" [] [.text "abcdef".data]

def exCtx1 : AnchorContext := ⟨(build exRoot1).1, (build exRoot1).2⟩

/-- Position selector `(0, 2)` with a quote `"zz"` that is absent. -/
def exSel1 : SelectorSet := ⟨none, some ⟨0, 2⟩, some ⟨"zz".data, [], []⟩⟩

/-- `<div><p>abc</p></div>` -/
def exRoot2 : DNode := .elem "div" [] [.elem "p" [] [.text "abc".data]]

def exCtx2 : AnchorContext := ⟨(build exRoot2).1, (build exRoot2).2⟩

/-- Range selector to `p[1]`, offsets 0–3. -/
def exRangeSel2 : RangeSel := ⟨[("p", 1)], [("p", 1)], 0, 3⟩

/-- All three selectors valid for `exRoot2`. -/
def exSel2 : SelectorSet := ⟨some exRangeSel2, some ⟨0, 3⟩, some ⟨"abc".data, [], []⟩⟩

/-- All selectors invalid for `exRoot2` (missing element, out-of-bounds
position, absent quote). -/
def exSel3 : SelectorSet := ⟨some ⟨[("q", 1)], [("q", 1)], 0, 3⟩, some ⟨90, 95⟩,
  some ⟨"zz".data, [], []⟩⟩


/-! ### The highlight marker (`highlighter.ts`) -/

def highlightClass : String := "annotator-highlight"

/-- `HighlightOptions`: `typ` is the source's `type` (a Lean keyword). -/
structure HighlightOptions where
  typ : Option String
  color : Option String
deriving Repr

/-- DOM `range.intersectsNode(node)`: with `parent` the node's parent and
`idx` its child index, the range intersects iff the range start is before
the boundary (parent, idx + 1) and the range end is after (parent, idx);
a parentless node (the walk root) intersects. -/
def intersectsNode (r : BRange) (p : List Nat) : Bool :=
  match p.getLast? with
  | none => true
  | some i =>
    bpCompare r.1 (p.dropLast, i + 1) = .lt && bpCompare (p.dropLast, i) r.2 = .lt

/-- `getTextNodeSlice(textNode, range)`: the intersection of the range with
the text leaf at path `p` holding `t`, as local offsets; for a range lying
fully inside the node's contents the range's own (text-container) offsets
are used. -/
def getTextNodeSlice (r : BRange) (p : List Nat) (t : Chars) : Option (Nat × Nat) :=
  if ¬ intersectsNode r p then none
  else
    let startCmp := bpCompare r.1 (p, 0)
    let endCmp := bpCompare r.2 (p, t.length)
    if startCmp ≠ .lt ∧ endCmp ≠ .gt then some (r.1.2, r.2.2)
    else
      let interStart := if startCmp = .lt ∨ startCmp = .eq then 0 else r.1.2
      let interEnd := if endCmp = .gt ∨ endCmp = .eq then t.length else r.2.2
      if interStart ≥ interEnd then none else some (interStart, interEnd)

/-- `rangeFullyContainsElement(range, element)`: the range contains the
element's whole contents (`selectNodeContents` spans offsets `0` to the
child count). -/
def rangeFullyContainsElement (r : BRange) (p : List Nat) (childCount : Nat) : Bool :=
  bpCompare r.1 (p, 0) ≠ .gt && bpCompare r.2 (p, childCount) ≠ .lt

/-- One collected text slice: the owning leaf's path and local offsets. -/
structure TextSeg where
  path : List Nat
  sliceStart : Nat
  sliceStop : Nat
deriving Repr, DecidableEq

mutual
/-- The walk of `collectHighlightRanges`: skip non-intersecting nodes;
record each text leaf's non-blank intersection slice; for an element the
source tests `rangeFullyContainsElement` but *descends into the children in
both branches* (its two branches run the identical loop — highlight only
text, never style the element). -/
def collectWalk (r : BRange) : DNode → List Nat → List TextSeg
  | .text t, p =>
    if ¬ intersectsNode r p then []
    else
      match getTextNodeSlice r p t with
      | none => []
      | some (s, e) =>
        if (trimChars (sliceChars t s e)).length > 0 then [⟨p, s, e⟩] else []
  | .elem _ _ cs, p =>
    if ¬ intersectsNode r p then []
    else
      if rangeFullyContainsElement r p cs.length then collectWalkList r cs p 0
      else collectWalkList r cs p 0

def collectWalkList (r : BRange) : List DNode → List Nat → Nat → List TextSeg
  | [], _, _ => []
  | c :: rest, p, i =>
    collectWalk r c (p ++ [i]) ++ collectWalkList r rest p (i + 1)
end

/-- Attribute list of the highlight `<span>` (class, the annotation id, the
optional type, and the color set via
`style.setProperty('background-color', color, 'important')`). -/
def spanAttrs (annId : String) (opts : HighlightOptions) : List (String × String) :=
  [("class", highlightClass), ("data-annotation-id", annId)] ++
    (match opts.typ with
     | some t => [("data-highlight-type", t)]
     | none => []) ++
    (match opts.color with
     | some c => [("background-color", c)]
     | none => [])

/-- Rewrite the child list of the element at `parentPath` with `f`;
`none` when the path is invalid or `f` declines. -/
def updateChildren : List Nat → DNode → (List DNode → Option (List DNode)) → Option DNode
  | [], .elem tag attrs cs, f =>
    match f cs with
    | some cs' => some (.elem tag attrs cs')
    | none => none
  | [], .text _, _ => none
  | i :: p, .elem tag attrs cs, f =>
    match cs.get? i with
    | none => none
    | some c =>
      match updateChildren p c f with
      | none => none
      | some c' => some (.elem tag attrs (cs.set i c'))
  | _ :: _, .text _, _ => none

/-- `wrapTextSegment(segment, annotationId, options)` as a tree rewrite:
replace the owning text node in place by an optional unmarked prefix text
node, the marker span holding exactly the slice, and an optional unmarked
suffix text node.  `none` when the slice is blank or the leaf has no
parent (in the source the mutation is by node reference; here a stale path
simply fails and the tree is kept). -/
def wrapTextSegment (tree : DNode) (seg : TextSeg) (annId : String)
    (opts : HighlightOptions) : Option DNode :=
  match subtreeAt tree seg.path with
  | some (.text d) =>
    let midText := sliceChars d seg.sliceStart seg.sliceStop
    if trimChars midText = [] then none
    else
      match seg.path.getLast? with
      | none => none
      | some i =>
        updateChildren seg.path.dropLast tree fun cs =>
          let beforeText := sliceChars d 0 seg.sliceStart
          let afterText := sliceFrom d seg.sliceStop
          let span := DNode.elem "span" (spanAttrs annId opts) [.text midText]
          let replacement :=
            (if seg.sliceStart > 0 then [DNode.text beforeText] else []) ++
              [span] ++
              (if d.length - seg.sliceStop > 0 then [DNode.text afterText] else [])
          if i < cs.length then some (cs.take i ++ replacement ++ cs.drop (i + 1))
          else none
  | _ => none

/-- Longest common prefix of two paths: the deepest common ancestor (the
DOM's `commonAncestorContainer` for boundary containers). -/
def lcp : List Nat → List Nat → List Nat
  | a :: xs, b :: ys => if a = b then a :: lcp xs ys else []
  | _, _ => []

/-- The walk root of `highlightRange`: the common ancestor container, or
its parent when that container is a text node. -/
def hrWalkRootPath (tree : DNode) (r : BRange) : List Nat :=
  let ca := lcp r.1.1 r.2.1
  match subtreeAt tree ca with
  | some (.text _) => ca.dropLast
  | _ => ca

/-- The text segments `highlightRange` collects. -/
def hrSegs (tree : DNode) (r : BRange) : List TextSeg :=
  match subtreeAt tree (hrWalkRootPath tree r) with
  | some n => collectWalk r n (hrWalkRootPath tree r)
  | none => []

/-- `highlightRange(range, annotationId, options)`: a collapsed range marks
nothing; collected slices are wrapped in *reverse document order* (so the
rewrites never invalidate a not-yet-processed slice); returns the mutated
tree and whether at least one span was created. -/
def highlightRange (tree : DNode) (r : BRange) (annId : String)
    (opts : HighlightOptions) : DNode × Bool :=
  if r.1 = r.2 then (tree, false)
  else
    let segs := hrSegs tree r
    if segs.length = 0 then (tree, false)
    else
      segs.reverse.foldl
        (fun acc seg =>
          match wrapTextSegment acc.1 seg annId opts with
          | some t' => (t', true)
          | none => acc)
        (tree, false)

mutual
/-- The concatenated text content of a node (`textContent`). -/
def nodeFlatText : DNode → Chars
  | .text s => s
  | .elem _ _ cs => nodeFlatTextList cs

def nodeFlatTextList : List DNode → Chars
  | [] => []
  | c :: rest => nodeFlatText c ++ nodeFlatTextList rest
end

mutual
/-- Node size, for induction over the nested tree type. -/
def nodeSize : DNode → Nat
  | .text _ => 1
  | .elem _ _ cs => 1 + nodeListSize cs

def nodeListSize : List DNode → Nat
  | [] => 0
  | c :: rest => nodeSize c + nodeListSize rest
end

/-- The text leaves under the walk root of `highlightRange` (relative
paths), for stating the whitespace-exclusion property. -/
def hrLeaves (tree : DNode) (r : BRange) : List (List Nat × Chars) :=
  match subtreeAt tree (hrWalkRootPath tree r) with
  | some n => textLeaves n
  | none => []

/-- `<div>x<b>y</b>z</div>`. -/
def exHl : DNode :=
  .elem "div" [] [.text ['x'], .elem "b" [] [.text ['y']], .text ['z']]

/-- The range over all of `exHl`, from the start of `x` to the end of `z`;
it fully contains the `<b>` element. -/
def exHlR : BRange := (([0], 0), ([2], 1))

/-- `<div>` holding the three text nodes `a`, two spaces, `b`. -/
def exWs : DNode :=
  .elem "div" [] [.text ['a'], .text [' ', ' '], .text ['b']]

/-- The range covering exactly the whitespace-only middle node of `exWs`. -/
def exWsR : BRange := (([1], 0), ([1], 2))

/-- `<div>abcde</div>`. -/
def exW : DNode := .elem "div" [] [.text ['a', 'b', 'c', 'd', 'e']]

/-- `exW` after wrapping slice 1–3 of its text node for annotation `id7`
with type `underline` and color `#ff0`. -/
def exW10 : DNode :=
  .elem "div" []
    [.text ['a'],
     .elem "span"
       [("class", highlightClass), ("data-annotation-id", "id7"),
        ("data-highlight-type", "underline"), ("background-color", "#ff0")]
       [.text ['b', 'c']],
     .text ['d', 'e']]


/-! ### Lemmas about the position mapper -/

theorem segsChainB_cons {pos : Nat} {seg : Segment} {rest : List Segment} :
    segsChainB pos (seg :: rest) = true ↔
      seg.segStart = pos ∧ seg.segStop = pos + seg.nodeText.length ∧
        segsChainB seg.segStop rest = true := by
  simp [segsChainB, Bool.and_eq_true, decide_eq_true_eq, and_assoc]

theorem segsChainB_segsOfLeaves (leaves : List (List Nat × Chars)) (pos : Nat) :
    segsChainB pos (segsOfLeaves leaves pos) = true := by
  induction leaves generalizing pos with
  | nil => rfl
  | cons hd tl ih =>
    obtain ⟨p, t⟩ := hd
    simpa [segsOfLeaves, segsChainB_cons] using ih (pos + t.length)

theorem segsOfLeaves_map_path (leaves : List (List Nat × Chars)) (pos : Nat) :
    (segsOfLeaves leaves pos).map Segment.path = leaves.map Prod.fst := by
  induction leaves generalizing pos with
  | nil => rfl
  | cons hd tl ih => obtain ⟨p, t⟩ := hd; simp [segsOfLeaves, ih]

theorem le_segsTotal (pos : Nat) {segs : List Segment}
    (h : segsChainB pos segs = true) : pos ≤ segsTotal pos segs := by
  induction segs generalizing pos with
  | nil => exact Nat.le_refl _
  | cons seg rest ih =>
    obtain ⟨h1, h2, h3⟩ := segsChainB_cons.mp h
    calc pos ≤ seg.segStop := by omega
    _ ≤ segsTotal seg.segStop rest := ih seg.segStop h3

theorem segStop_le_segsTotal (pos : Nat) {segs : List Segment} {seg : Segment}
    (h : segsChainB pos segs = true) (hm : seg ∈ segs) :
    seg.segStop ≤ segsTotal pos segs := by
  induction segs generalizing pos with
  | nil => cases hm
  | cons hd rest ih =>
    obtain ⟨h1, h2, h3⟩ := segsChainB_cons.mp h
    rcases List.mem_cons.mp hm with rfl | hm'
    · simpa [segsTotal] using le_segsTotal seg.segStop h3
    · simpa [segsTotal] using ih hd.segStop h3 hm'

theorem mem_segsOfLeaves_of_get {leaves : List (List Nat × Chars)} (pos : Nat) {i : Nat}
    {p : List Nat} {t : Chars} (h : leaves.get? i = some (p, t)) :
    ∃ seg ∈ segsOfLeaves leaves pos, seg.path = p ∧ seg.nodeText = t := by
  induction leaves generalizing pos i with
  | nil => simp at h
  | cons hd tl ih =>
    obtain ⟨q, u⟩ := hd
    cases i with
    | zero =>
      simp only [List.get?_cons_zero, Option.some.injEq] at h
      cases h
      exact ⟨⟨pos, pos + t.length, p, t⟩, by simp [segsOfLeaves], rfl, rfl⟩
    | succ j =>
      simp only [List.get?_cons_succ] at h
      obtain ⟨seg, hmem, hp, ht⟩ := ih (pos + u.length) h
      exact ⟨seg, by simp [segsOfLeaves, hmem], hp, ht⟩

/-- `positionToOffset` on a segment's own node, when node references are
distinct, yields that segment's clamped global offset. -/
theorem positionToOffset_of_mem {segs : List Segment} {seg : Segment} {off : Nat}
    (hnd : (segs.map Segment.path).Nodup) (hm : seg ∈ segs) :
    positionToOffset segs seg.path off =
      some (seg.segStart + min off seg.nodeText.length) := by
  induction segs with
  | nil => cases hm
  | cons hd rest ih =>
    rcases List.mem_cons.mp hm with rfl | hm'
    · simp [positionToOffset]
    · have hnd' := List.nodup_cons.mp hnd
      have hne : hd.path ≠ seg.path := by
        intro he
        exact hnd'.1 (by rw [he]; exact List.mem_map_of_mem _ hm')
      simp only [positionToOffset, if_neg hne]
      exact ih (List.nodup_cons.mp hnd).2 hm'

/-- End-boundary scan of `offsetsToRangeLoop` once the start is placed. -/
theorem offsetsToRangeLoop_some_st {segs : List Segment} (pos s e : Nat) (b1 : BPoint)
    (hch : segsChainB pos segs = true) (hpos : pos ≤ e)
    (htot : e ≤ segsTotal pos segs) (hne : segs ≠ []) :
    ∃ seg ∈ segs, seg.segStart ≤ e ∧ e ≤ seg.segStop ∧
      offsetsToRangeLoop segs s e (some b1) =
        some (domAdjust b1 (seg.path, e - seg.segStart)) := by
  induction segs generalizing pos with
  | nil => exact absurd rfl hne
  | cons seg rest ih =>
    obtain ⟨h1, h2, h3⟩ := segsChainB_cons.mp hch
    by_cases he : e ≤ seg.segStop
    · refine ⟨seg, List.mem_cons_self .., by omega, he, ?_⟩
      have hmin : min (e - seg.segStart) seg.nodeText.length = e - seg.segStart := by omega
      simp [offsetsToRangeLoop, he, hmin]
    · have hrest : rest ≠ [] := by
        rintro rfl
        simp [segsTotal] at htot
        omega
      obtain ⟨sg, hmem, hle, hge, hrun⟩ :=
        ih seg.segStop h3 (by omega) (by simpa [segsTotal] using htot) hrest
      exact ⟨sg, List.mem_cons_of_mem _ hmem, hle, hge, by
        simpa [offsetsToRangeLoop, he] using hrun⟩

/-- Full scan of `offsetsToRangeLoop` for an ordered, in-bounds pair. -/
theorem offsetsToRangeLoop_some {segs : List Segment} (pos s e : Nat)
    (hch : segsChainB pos segs = true) (hs : pos ≤ s) (hse : s ≤ e)
    (htot : e ≤ segsTotal pos segs) (hne : segs ≠ []) :
    ∃ seg1 ∈ segs, ∃ seg2 ∈ segs,
      seg1.segStart ≤ s ∧ s ≤ seg1.segStop ∧ seg2.segStart ≤ e ∧ e ≤ seg2.segStop ∧
      offsetsToRangeLoop segs s e none =
        some (domAdjust (seg1.path, s - seg1.segStart) (seg2.path, e - seg2.segStart)) := by
  induction segs generalizing pos with
  | nil => exact absurd rfl hne
  | cons seg rest ih =>
    obtain ⟨h1, h2, h3⟩ := segsChainB_cons.mp hch
    by_cases hstart : s ≤ seg.segStop
    · have hminS : min (s - seg.segStart) seg.nodeText.length = s - seg.segStart := by omega
      by_cases he : e ≤ seg.segStop
      · refine ⟨seg, List.mem_cons_self .., seg, List.mem_cons_self ..,
          by omega, hstart, by omega, he, ?_⟩
        have hminE : min (e - seg.segStart) seg.nodeText.length = e - seg.segStart := by omega
        simp [offsetsToRangeLoop, hstart, he, hminS, hminE]
      · have hrest : rest ≠ [] := by
          rintro rfl
          simp [segsTotal] at htot
          omega
        obtain ⟨sg, hmem, hle, hge, hrun⟩ :=
          offsetsToRangeLoop_some_st seg.segStop s e
            (seg.path, s - seg.segStart) h3 (by omega)
            (by simpa [segsTotal] using htot) hrest
        refine ⟨seg, List.mem_cons_self .., sg, List.mem_cons_of_mem _ hmem,
          by omega, hstart, hle, hge, ?_⟩
        simpa [offsetsToRangeLoop, he, hstart, hminS] using hrun
    · have he : ¬ e ≤ seg.segStop := by omega
      have hrest : rest ≠ [] := by
        rintro rfl
        simp [segsTotal] at htot
        omega
      obtain ⟨sg1, hm1, sg2, hm2, ha, hb, hc, hd, hrun⟩ :=
        ih seg.segStop h3 (by omega) (by simpa [segsTotal] using htot) hrest
      exact ⟨sg1, List.mem_cons_of_mem _ hm1, sg2, List.mem_cons_of_mem _ hm2,
        ha, hb, hc, hd, by simpa [offsetsToRangeLoop, hstart, he] using hrun⟩

/-- Both boundaries out of reach on the left: `start` beyond the table. -/
theorem offsetsToRangeLoop_none_of_start {segs : List Segment} (pos s e : Nat)
    (hch : segsChainB pos segs = true) (hs : segsTotal pos segs < s) :
    offsetsToRangeLoop segs s e none = none := by
  induction segs generalizing pos with
  | nil => rfl
  | cons seg rest ih =>
    obtain ⟨h1, h2, h3⟩ := segsChainB_cons.mp hch
    have hstop : seg.segStop ≤ segsTotal pos (seg :: rest) :=
      segStop_le_segsTotal pos hch (List.mem_cons_self ..)
    have hss : ¬ s ≤ seg.segStop := by omega
    by_cases he : e ≤ seg.segStop
    · simp [offsetsToRangeLoop, hss, he]
    · simpa [offsetsToRangeLoop, hss, he] using
        ih seg.segStop h3 (by simpa [segsTotal] using hs)

/-- `end` beyond the table: the walk runs out without placing the end. -/
theorem offsetsToRangeLoop_none_of_stop {segs : List Segment} (pos s e : Nat)
    (hch : segsChainB pos segs = true) (he : segsTotal pos segs < e) :
    ∀ st, offsetsToRangeLoop segs s e st = none := by
  induction segs generalizing pos with
  | nil => intro st; rfl
  | cons seg rest ih =>
    intro st
    obtain ⟨h1, h2, h3⟩ := segsChainB_cons.mp hch
    have hstop : seg.segStop ≤ segsTotal pos (seg :: rest) :=
      segStop_le_segsTotal pos hch (List.mem_cons_self ..)
    have hee : ¬ e ≤ seg.segStop := by omega
    simpa [offsetsToRangeLoop, hee] using
      ih seg.segStop h3 (by simpa [segsTotal] using he) _

/-- Per-segment extent from the chain invariant. -/
theorem segStop_eq_of_mem (pos : Nat) {segs : List Segment} {seg : Segment}
    (h : segsChainB pos segs = true) (hm : seg ∈ segs) :
    seg.segStop = seg.segStart + seg.nodeText.length := by
  induction segs generalizing pos with
  | nil => cases hm
  | cons hd rest ih =>
    obtain ⟨h1, h2, h3⟩ := segsChainB_cons.mp h
    rcases List.mem_cons.mp hm with rfl | hm'
    · omega
    · exact ih hd.segStop h3 hm'

/-- Inversion of the end-boundary scan with the start already placed. -/
theorem offsetsToRangeLoop_inv_st {segs : List Segment} {s e : Nat} {b1 : BPoint}
    {r : BRange} (h : offsetsToRangeLoop segs s e (some b1) = some r) :
    ∃ seg ∈ segs, e ≤ seg.segStop ∧
      r = domAdjust b1 (seg.path, min (e - seg.segStart) seg.nodeText.length) := by
  induction segs with
  | nil => simp [offsetsToRangeLoop] at h
  | cons seg rest ih =>
    by_cases he : e ≤ seg.segStop
    · simp only [offsetsToRangeLoop, he, if_pos, if_true] at h
      refine ⟨seg, List.mem_cons_self .., he, ?_⟩
      simp only [show ¬ ((some b1 : Option BPoint) = none ∧ s ≤ seg.segStop) by simp,
        if_neg, if_false] at h
      exact (Option.some.injEq .. ▸ h).symm
    · simp only [offsetsToRangeLoop, he, if_false,
        show ¬ ((some b1 : Option BPoint) = none ∧ s ≤ seg.segStop) by simp, if_neg] at h
      obtain ⟨sg, hmem, hle, hr⟩ := ih h
      exact ⟨sg, List.mem_cons_of_mem _ hmem, hle, hr⟩

/-- A successful `offsetsToRange` on a well-formed table with a strictly
ordered pair is never collapsed. -/
theorem offsetsToRange_ne_of_lt {segs : List Segment} (pos s e : Nat) {r : BRange}
    (hch : segsChainB pos segs = true) (hnd : (segs.map Segment.path).Nodup)
    (hs : pos ≤ s) (hlt : s < e)
    (h : offsetsToRangeLoop segs s e none = some r) : r.1 ≠ r.2 := by
  induction segs generalizing pos with
  | nil => simp [offsetsToRangeLoop] at h
  | cons seg rest ih =>
    obtain ⟨h1, h2, h3⟩ := segsChainB_cons.mp hch
    by_cases hstart : s ≤ seg.segStop
    · have hminS : min (s - seg.segStart) seg.nodeText.length = s - seg.segStart := by omega
      by_cases he : e ≤ seg.segStop
      · have hminE : min (e - seg.segStart) seg.nodeText.length = e - seg.segStart := by omega
        simp only [offsetsToRangeLoop, he, hstart, if_true, and_true,
          show (none : Option BPoint) = none by rfl, true_and, if_pos] at h
        rw [hminS, hminE] at h
        have hoff : s - seg.segStart < e - seg.segStart := by omega
        have : r = ((seg.path, s - seg.segStart), (seg.path, e - seg.segStart)) := by
          have hadj : domAdjust (seg.path, s - seg.segStart) (seg.path, e - seg.segStart) =
              ((seg.path, s - seg.segStart), (seg.path, e - seg.segStart)) := by
            simp [domAdjust]
            omega
          rw [hadj] at h
          exact (Option.some.injEq .. ▸ h).symm
        rw [this]
        intro hc
        have := congrArg Prod.snd hc
        simp at this
        omega
      · simp only [offsetsToRangeLoop, he, hstart, if_true, and_true,
          show (none : Option BPoint) = none by rfl, true_and, if_pos, if_false] at h
        rw [hminS] at h
        obtain ⟨sg, hmem, hle, hr⟩ := offsetsToRangeLoop_inv_st h
        have hnd' := List.nodup_cons.mp hnd
        have hpne : seg.path ≠ sg.path := by
          intro hp
          exact hnd'.1 (by rw [hp]; exact List.mem_map_of_mem _ hmem)
        have hadj : domAdjust (seg.path, s - seg.segStart)
            (sg.path, min (e - sg.segStart) sg.nodeText.length) =
            ((seg.path, s - seg.segStart),
             (sg.path, min (e - sg.segStart) sg.nodeText.length)) := by
          simp [domAdjust, hpne]
        rw [hadj] at hr
        rw [hr]
        intro hc
        apply hpne
        exact congrArg Prod.fst hc
    · have he : ¬ e ≤ seg.segStop := by omega
      simp only [offsetsToRangeLoop, hstart, and_false, if_false, he] at h
      exact ih seg.segStop h3 (List.nodup_cons.mp hnd).2 (by omega) h

/-- Ordered in-bounds pairs resolve to boundaries that map back to the same
flat offsets (`positionToOffset` recovers `s` and `e`). -/
theorem offsetsToRange_maps_back {segs : List Segment} (s e : Nat)
    (hch : segsChainB 0 segs = true) (hnd : (segs.map Segment.path).Nodup)
    (hse : s ≤ e) (htot : e ≤ segsTotal 0 segs) (hne : segs ≠ []) :
    ∃ R' : BRange, offsetsToRange segs s e = some R' ∧
      positionToOffset segs R'.1.1 R'.1.2 = some s ∧
      positionToOffset segs R'.2.1 R'.2.2 = some e := by
  obtain ⟨seg1, hm1, seg2, hm2, ha, hb, hc, hd, hrun⟩ :=
    offsetsToRangeLoop_some 0 s e hch (Nat.zero_le s) hse htot hne
  have hstop1 := segStop_eq_of_mem 0 hch hm1
  have hstop2 := segStop_eq_of_mem 0 hch hm2
  have hinj := List.inj_on_of_nodup_map hnd
  have hadj : domAdjust (seg1.path, s - seg1.segStart) (seg2.path, e - seg2.segStart) =
      ((seg1.path, s - seg1.segStart), (seg2.path, e - seg2.segStart)) := by
    by_cases hp : seg1.path = seg2.path
    · have : seg1 = seg2 := hinj hm1 hm2 hp
      subst this
      simp [domAdjust]
      omega
    · simp [domAdjust, hp]
  refine ⟨((seg1.path, s - seg1.segStart), (seg2.path, e - seg2.segStart)), ?_, ?_, ?_⟩
  · rw [offsetsToRange, hrun, hadj]
  · rw [positionToOffset_of_mem hnd hm1]
    have : min (s - seg1.segStart) seg1.nodeText.length = s - seg1.segStart := by omega
    rw [this]
    congr 1
    omega
  · rw [positionToOffset_of_mem hnd hm2]
    have : min (e - seg2.segStart) seg2.nodeText.length = e - seg2.segStart := by omega
    rw [this]
    congr 1
    omega

/-! ### Claims C7 and C9 (position mapper) -/

/-- **C7**: round trip through the position mapper.  For every tree range
lying entirely inside one segment (both boundaries in the same leaf, with
in-node offsets), converting it to flat offsets with `rangeToOffsets` and
back with `offsetsToRange` succeeds, and the recovered range maps to the
same flat offsets — hence spans the identical boundary text of the
document. -/
theorem claim_C7_roundtrip (leaves : List (List Nat × Chars)) (i : Nat)
    (p : List Nat) (t : Chars) (so eo : Nat)
    (hnd : (leaves.map Prod.fst).Nodup)
    (hget : leaves.get? i = some (p, t)) (h1 : so ≤ eo) (h2 : eo ≤ t.length) :
    ∃ R' : BRange,
      offsetsToRange (segsOfLeaves leaves 0)
          (rangeToOffsets (segsOfLeaves leaves 0) ((p, so), (p, eo))).1
          (rangeToOffsets (segsOfLeaves leaves 0) ((p, so), (p, eo))).2 = some R' ∧
      rangeToOffsets (segsOfLeaves leaves 0) R' =
        rangeToOffsets (segsOfLeaves leaves 0) ((p, so), (p, eo)) ∧
      sliceChars ((leaves.map Prod.snd).flatten)
          (rangeToOffsets (segsOfLeaves leaves 0) R').1
          (rangeToOffsets (segsOfLeaves leaves 0) R').2 =
        sliceChars ((leaves.map Prod.snd).flatten)
          (rangeToOffsets (segsOfLeaves leaves 0) ((p, so), (p, eo))).1
          (rangeToOffsets (segsOfLeaves leaves 0) ((p, so), (p, eo))).2 := by
  set segs := segsOfLeaves leaves 0 with hsegs
  have hch : segsChainB 0 segs = true := segsChainB_segsOfLeaves leaves 0
  have hndseg : (segs.map Segment.path).Nodup := by
    rw [hsegs, segsOfLeaves_map_path]
    exact hnd
  obtain ⟨seg, hmem, hp, ht⟩ := mem_segsOfLeaves_of_get 0 hget
  rw [← hsegs] at hmem
  have hstop := segStop_eq_of_mem 0 hch hmem
  have hso : positionToOffset segs p so = some (seg.segStart + so) := by
    rw [← hp, positionToOffset_of_mem hndseg hmem, ht]
    congr 1
    omega
  have heo : positionToOffset segs p eo = some (seg.segStart + eo) := by
    rw [← hp, positionToOffset_of_mem hndseg hmem, ht]
    congr 1
    omega
  have hro : rangeToOffsets segs ((p, so), (p, eo)) = (seg.segStart + so, seg.segStart + eo) := by
    simp [rangeToOffsets, hso, heo]
  have hne : segs ≠ [] := by
    intro h
    rw [h] at hmem
    cases hmem
  have htot : seg.segStart + eo ≤ segsTotal 0 segs := by
    have := segStop_le_segsTotal 0 hch hmem
    rw [ht] at hstop
    omega
  obtain ⟨R', hR', hback1, hback2⟩ :=
    offsetsToRange_maps_back (seg.segStart + so) (seg.segStart + eo) hch hndseg
      (by omega) htot hne
  refine ⟨R', by rw [hro]; exact hR', ?_, ?_⟩
  · rw [hro]
    simp [rangeToOffsets, hback1, hback2]
  · rw [hro]
    simp [rangeToOffsets, hback1, hback2]

/-- Witness for C7 at a concrete two-leaf document. -/
theorem claim_C7_roundtrip_witness :
    ([([0], "ab".data), ([1], "cde".data)].map (Prod.fst (β := Chars))).Nodup ∧
    [([0], "ab".data), ([1], "cde".data)].get? 1 = some ([1], "cde".data) ∧
    (1 : Nat) ≤ 3 ∧ 3 ≤ "cde".data.length ∧
    (∃ R' : BRange,
      offsetsToRange (segsOfLeaves [([0], "ab".data), ([1], "cde".data)] 0)
          (rangeToOffsets (segsOfLeaves [([0], "ab".data), ([1], "cde".data)] 0)
            (([1], 1), ([1], 3))).1
          (rangeToOffsets (segsOfLeaves [([0], "ab".data), ([1], "cde".data)] 0)
            (([1], 1), ([1], 3))).2 = some R' ∧
      rangeToOffsets (segsOfLeaves [([0], "ab".data), ([1], "cde".data)] 0) R' =
        rangeToOffsets (segsOfLeaves [([0], "ab".data), ([1], "cde".data)] 0)
          (([1], 1), ([1], 3)) ∧
      sliceChars (([([0], "ab".data), ([1], "cde".data)].map Prod.snd).flatten)
          (rangeToOffsets (segsOfLeaves [([0], "ab".data), ([1], "cde".data)] 0) R').1
          (rangeToOffsets (segsOfLeaves [([0], "ab".data), ([1], "cde".data)] 0) R').2 =
        sliceChars (([([0], "ab".data), ([1], "cde".data)].map Prod.snd).flatten)
          (rangeToOffsets (segsOfLeaves [([0], "ab".data), ([1], "cde".data)] 0)
            (([1], 1), ([1], 3))).1
          (rangeToOffsets (segsOfLeaves [([0], "ab".data), ([1], "cde".data)] 0)
            (([1], 1), ([1], 3))).2) :=
  ⟨by decide, by decide, by decide, by decide,
    claim_C7_roundtrip [([0], "ab".data), ([1], "cde".data)] 1 [1] "cde".data 1 3
      (by decide) (by decide) (by decide) (by decide)⟩

/-- **C9** (amended): `offsetsToRange(start, end)` returns `null` whenever
`start` or `end` exceeds the total text length, and for every *ordered*
in-bounds pair on a nonempty table it succeeds, placing each boundary inside
the owning segment's node at the clamped local offset.  (A reversed
in-bounds pair may also return `null` — see the counterexample — so "null
exactly when out of bounds" does not hold; the mapper never throws, being a
total function into `Option`.) -/
theorem claim_C9_offsetsToRange (leaves : List (List Nat × Chars)) (s e : Nat) :
    (segsTotal 0 (segsOfLeaves leaves 0) < s ∨ segsTotal 0 (segsOfLeaves leaves 0) < e →
       offsetsToRange (segsOfLeaves leaves 0) s e = none) ∧
    ((leaves.map Prod.fst).Nodup → leaves ≠ [] → s ≤ e →
       e ≤ segsTotal 0 (segsOfLeaves leaves 0) →
       ∃ seg1 ∈ segsOfLeaves leaves 0, ∃ seg2 ∈ segsOfLeaves leaves 0,
         seg1.segStart ≤ s ∧ s ≤ seg1.segStop ∧ seg2.segStart ≤ e ∧ e ≤ seg2.segStop ∧
         offsetsToRange (segsOfLeaves leaves 0) s e =
           some ((seg1.path, min (s - seg1.segStart) seg1.nodeText.length),
                 (seg2.path, min (e - seg2.segStart) seg2.nodeText.length))) := by
  have hch : segsChainB 0 (segsOfLeaves leaves 0) = true := segsChainB_segsOfLeaves leaves 0
  constructor
  · rintro (hs | he)
    · exact offsetsToRangeLoop_none_of_start 0 s e hch hs
    · exact offsetsToRangeLoop_none_of_stop 0 s e hch he none
  · intro hnd hne hse htot
    have hndseg : ((segsOfLeaves leaves 0).map Segment.path).Nodup := by
      rw [segsOfLeaves_map_path]
      exact hnd
    have hne' : segsOfLeaves leaves 0 ≠ [] := by
      cases leaves with
      | nil => exact absurd rfl hne
      | cons hd tl =>
        obtain ⟨p, t⟩ := hd
        simp [segsOfLeaves]
    obtain ⟨seg1, hm1, seg2, hm2, ha, hb, hc, hd, hrun⟩ :=
      offsetsToRangeLoop_some 0 s e hch (Nat.zero_le s) hse htot hne'
    have hstop1 := segStop_eq_of_mem 0 hch hm1
    have hstop2 := segStop_eq_of_mem 0 hch hm2
    have hmin1 : min (s - seg1.segStart) seg1.nodeText.length = s - seg1.segStart := by omega
    have hmin2 : min (e - seg2.segStart) seg2.nodeText.length = e - seg2.segStart := by omega
    have hadj : domAdjust (seg1.path, s - seg1.segStart) (seg2.path, e - seg2.segStart) =
        ((seg1.path, s - seg1.segStart), (seg2.path, e - seg2.segStart)) := by
      by_cases hp : seg1.path = seg2.path
      · have : seg1 = seg2 := List.inj_on_of_nodup_map hndseg hm1 hm2 hp
        subst this
        simp [domAdjust]
        omega
      · simp [domAdjust, hp]
    exact ⟨seg1, hm1, seg2, hm2, ha, hb, hc, hd, by
      rw [offsetsToRange, hrun, hadj, hmin1, hmin2]⟩

/-- Witness for C9: both conjuncts applied at concrete inputs on the table
of `"abc"`, `"def"` (out-of-bounds `(9, 1)` gives `null`; in-bounds `(1, 4)`
places the boundaries). -/
theorem claim_C9_offsetsToRange_witness :
    (segsTotal 0 (segsOfLeaves [([0], "abc".data), ([1], "def".data)] 0) < 9 ∧
      offsetsToRange (segsOfLeaves [([0], "abc".data), ([1], "def".data)] 0) 9 1 = none) ∧
    (∃ seg1 ∈ segsOfLeaves [([0], "abc".data), ([1], "def".data)] 0,
     ∃ seg2 ∈ segsOfLeaves [([0], "abc".data), ([1], "def".data)] 0,
       seg1.segStart ≤ 1 ∧ 1 ≤ seg1.segStop ∧ seg2.segStart ≤ 4 ∧ 4 ≤ seg2.segStop ∧
       offsetsToRange (segsOfLeaves [([0], "abc".data), ([1], "def".data)] 0) 1 4 =
         some ((seg1.path, min (1 - seg1.segStart) seg1.nodeText.length),
               (seg2.path, min (4 - seg2.segStart) seg2.nodeText.length))) :=
  ⟨⟨by decide,
    (claim_C9_offsetsToRange [([0], "abc".data), ([1], "def".data)] 9 1).1
      (Or.inl (by decide))⟩,
   (claim_C9_offsetsToRange [([0], "abc".data), ([1], "def".data)] 1 4).2
     (by decide) (by decide) (by decide) (by decide)⟩

/-- **C9** counterexample: on the table of `"abc"`, `"def"` (total length 6)
the pair `(5, 2)` is within total-text bounds, yet `offsetsToRange` returns
`null` — refuting "returns null exactly when (start, end) is out of
total-text bounds". -/
theorem claim_C9_counterexample :
    offsetsToRange (segsOfLeaves [([0], "abc".data), ([1], "def".data)] 0) 5 2 = none ∧
    5 ≤ segsTotal 0 (segsOfLeaves [([0], "abc".data), ([1], "def".data)] 0) ∧
    2 ≤ segsTotal 0 (segsOfLeaves [([0], "abc".data), ([1], "def".data)] 0) := by
  exact ⟨by decide, by decide, by decide⟩

/-- Every entry of `scores` records a real index and its match. -/
theorem mem_mkScores {doc : Chars} {opts : PickOptions} {ms : List (Nat × Nat)}
    {x : ScoreEntry} (h : x ∈ mkScores doc opts ms) :
    ∃ i m, ms[i]? = some m ∧
      x = ⟨i, m.1, m.2, (scoreParts doc opts m).1,
        (scoreParts doc opts m).2.1, (scoreParts doc opts m).2.2⟩ := by
  unfold mkScores at h
  obtain ⟨im, him, hx⟩ := List.mem_map.mp h
  exact ⟨im.1, im.2, List.mem_enum_iff_getElem?.mp him, hx.symm⟩

/-- The imperative candidate list (filter the score entries, then index back
into `matches`) is the plain filter by both-sides context match. -/
theorem candidates_eq (doc : Chars) (opts : PickOptions) (ms : List (Nat × Nat)) :
    ((mkScores doc opts ms).filter fun s => s.preMatch && s.sufMatch).map
        (fun s => ms.getD s.idx (0, 0)) = ms.filter (bothMatch doc opts) := by
  unfold mkScores
  rw [List.filter_map, List.map_map]
  have hstep : ∀ im ∈ ms.enum.filter fun im : Nat × (Nat × Nat) =>
      bothMatch doc opts im.2,
      ms.getD im.1 (0, 0) = im.2 := by
    intro im him
    have := List.mem_enum_iff_getElem?.mp (List.mem_filter.mp him).1
    rw [List.getD_eq_getElem?_getD, this]
    rfl
  calc (ms.enum.filter fun im : Nat × (Nat × Nat) => bothMatch doc opts im.2).map
        (fun im => ms.getD im.1 (0, 0))
      = (ms.enum.filter fun im : Nat × (Nat × Nat) => bothMatch doc opts im.2).map
          Prod.snd := List.map_congr_left hstep
    _ = (ms.enum.map Prod.snd).filter (bothMatch doc opts) :=
        (List.filter_map (p := bothMatch doc opts) Prod.snd ms.enum).symm
    _ = ms.filter (bothMatch doc opts) := by rw [List.enum_map_snd]

/-- The score lookup inside the fold recovers the candidate's own score. -/
theorem lookup_score {doc : Chars} {opts : PickOptions} {ms : List (Nat × Nat)}
    {m : Nat × Nat} (hm : m ∈ ms) :
    (((mkScores doc opts ms).find? fun x =>
        decide (x.mStart = m.1) && decide (x.mStop = m.2)).getD
      ((mkScores doc opts ms).headD dummyScore)).score = scoreOf doc opts m := by
  obtain ⟨i, hi⟩ := List.mem_iff_get?.mp hm
  have hentry : (⟨i, m.1, m.2, (scoreParts doc opts m).1, (scoreParts doc opts m).2.1,
      (scoreParts doc opts m).2.2⟩ : ScoreEntry) ∈ mkScores doc opts ms := by
    unfold mkScores
    refine List.mem_map.mpr ⟨(i, m), ?_, rfl⟩
    exact List.mem_enum_iff_getElem?.mpr (by rw [← List.get?_eq_getElem?]; exact hi)
  have hsome : ((mkScores doc opts ms).find? fun x =>
      decide (x.mStart = m.1) && decide (x.mStop = m.2)).isSome :=
    List.find?_isSome.mpr ⟨_, hentry, by simp⟩
  obtain ⟨x, hx⟩ := Option.isSome_iff_exists.mp hsome
  rw [hx]
  have hpx := List.find?_some hx
  obtain ⟨j, m', hj, hxeq⟩ := mem_mkScores (List.mem_of_find?_eq_some hx)
  subst hxeq
  simp only [Bool.and_eq_true, decide_eq_true_eq] at hpx
  have hmm : m' = m := Prod.ext hpx.1 hpx.2
  rw [hmm]
  rfl

/-- The strict-improvement fold over already-seen state agrees with the
first-maximum fold. -/
theorem foldl_step_eq {α : Type} (f : α → Nat) (cs : List α) :
    ∀ a : α,
      cs.foldl (fun acc c => if acc.2 < (f c : Int) then (some c, (f c : Int)) else acc)
          (some a, (f a : Int)) =
        (some (cs.foldl (fun x y => if f x < f y then y else x) a),
         (f (cs.foldl (fun x y => if f x < f y then y else x) a) : Int)) := by
  induction cs with
  | nil => intro a; rfl
  | cons c cs ih =>
    intro a
    show cs.foldl _
        (if ((f a : Int) < (f c : Int)) then (some c, (f c : Int))
         else (some a, (f a : Int))) = _
    by_cases h : f a < f c
    · rw [if_pos (Int.ofNat_lt.mpr h)]
      simp only [List.foldl_cons, if_pos h]
      exact ih c
    · rw [if_neg (fun hc => h (Int.ofNat_lt.mp hc))]
      simp only [List.foldl_cons, if_neg h]
      exact ih a

theorem foldl_max_init {α : Type} (f : α → Nat) (cs : List α) :
    ∀ a : α, f a ≤ f (cs.foldl (fun x y => if f x < f y then y else x) a) := by
  induction cs with
  | nil => intro a; exact le_refl _
  | cons c cs ih =>
    intro a
    show f a ≤ f (cs.foldl _ (if f a < f c then c else a))
    by_cases h : f a < f c
    · exact le_of_lt (h.trans_le (by rw [if_pos h]; exact ih c))
    · rw [if_neg h]; exact ih a

theorem foldl_max_mem {α : Type} (f : α → Nat) (cs : List α) :
    ∀ a m : α, m ∈ cs → f m ≤ f (cs.foldl (fun x y => if f x < f y then y else x) a) := by
  induction cs with
  | nil => intro a m hm; cases hm
  | cons c cs ih =>
    intro a m hm
    show f m ≤ f (cs.foldl _ (if f a < f c then c else a))
    rcases List.mem_cons.mp hm with hme | hm'
    · rw [hme]
      by_cases h : f a < f c
      · rw [if_pos h]; exact foldl_max_init f cs c
      · rw [if_neg h]; exact (le_of_not_lt h).trans (foldl_max_init f cs a)
    · exact ih _ m hm'

theorem foldl_binary_choice_mem {α : Type} (step : α → α → α)
    (hstep : ∀ a b, step a b = a ∨ step a b = b) (cs : List α) :
    ∀ a : α, cs.foldl step a ∈ a :: cs := by
  induction cs with
  | nil => intro a; exact List.mem_cons_self ..
  | cons c cs ih =>
    intro a
    show cs.foldl step (step a c) ∈ _
    rcases List.mem_cons.mp (ih (step a c)) with h | h
    · rcases hstep a c with hs | hs
      · rw [h, hs]; exact List.mem_cons_self ..
      · rw [h, hs]; exact List.mem_cons_of_mem _ (List.mem_cons_self ..)
    · exact List.mem_cons_of_mem _ (List.mem_cons_of_mem _ h)

theorem foldl_choice_mem {α : Type} (f : α → Nat) (cs : List α) :
    ∀ a : α, cs.foldl (fun x y => if f x < f y then y else x) a ∈ a :: cs :=
  foldl_binary_choice_mem _ (fun a b => by
    by_cases hc : f a < f b
    · exact Or.inr (if_pos hc)
    · exact Or.inl (if_neg hc)) cs

theorem nearestReduce_mem {h : Nat} {cs : List (Nat × Nat)} {b : Nat × Nat}
    (hb : nearestReduce h cs = some b) : b ∈ cs := by
  cases cs with
  | nil => cases hb
  | cons c cs =>
    unfold nearestReduce at hb
    have hbe := Option.some.inj hb
    rw [← hbe]
    exact foldl_binary_choice_mem
      (fun a b : Nat × Nat => if dist2 h a ≤ dist2 h b then a else b)
      (fun a b => by
        by_cases hc : dist2 h a ≤ dist2 h b
        · exact Or.inl (if_pos hc)
        · exact Or.inr (if_neg hc)) cs c

/-- `pbmCandidates` is the filter by both-sides context match (when context
is given and the filter is nonempty), else all matches. -/
theorem pbmCandidates_eq (doc : Chars) (opts : PickOptions) (ms : List (Nat × Nat)) :
    pbmCandidates doc opts ms =
      if (opts.pre.length > 0 ∨ opts.suf.length > 0) ∧
          ms.filter (bothMatch doc opts) ≠ [] then
        ms.filter (bothMatch doc opts)
      else ms := by
  unfold pbmCandidates
  have hmap := candidates_eq doc opts ms
  have hiff : ((mkScores doc opts ms).filter fun s => s.preMatch && s.sufMatch) ≠ [] ↔
      ms.filter (bothMatch doc opts) ≠ [] := by
    rw [← hmap]
    exact not_congr List.map_eq_nil_iff.symm
  by_cases hcon : (opts.pre.length > 0 ∨ opts.suf.length > 0) ∧
      ms.filter (bothMatch doc opts) ≠ []
  · rw [if_pos ⟨hcon.1, hiff.mpr hcon.2⟩, if_pos hcon, hmap]
  · rw [if_neg ?_, if_neg hcon]
    intro hx
    exact hcon ⟨hx.1, hiff.mp hx.2⟩

theorem pbmCandidates_subset (doc : Chars) (opts : PickOptions) (ms : List (Nat × Nat)) :
    ∀ m ∈ pbmCandidates doc opts ms, m ∈ ms := by
  rw [pbmCandidates_eq]
  split
  · intro m hm
    exact (List.mem_filter.mp hm).1
  · intro m hm
    exact hm

theorem pbmCandidates_ne {doc : Chars} {opts : PickOptions} {ms : List (Nat × Nat)}
    (hne : ms ≠ []) : pbmCandidates doc opts ms ≠ [] := by
  rw [pbmCandidates_eq]
  split
  · next hcon => exact hcon.2
  · exact hne

/-- The fold produces the first maximal-score candidate and its score. -/
theorem pbmFold_eq {doc : Chars} {opts : PickOptions} {ms cands : List (Nat × Nat)}
    (hsub : ∀ m ∈ cands, m ∈ ms) (hne : cands ≠ []) :
    ∃ r, argmaxFirst (scoreOf doc opts) cands = some r ∧
      pbmFold doc opts ms cands = (some r, (scoreOf doc opts r : Int)) ∧
      r ∈ cands ∧ ∀ m ∈ cands, scoreOf doc opts m ≤ scoreOf doc opts r := by
  cases cands with
  | nil => exact absurd rfl hne
  | cons c cs =>
    have hlookup : ∀ (acc : Option (Nat × Nat) × Int), ∀ m ∈ c :: cs,
        (fun (acc : Option (Nat × Nat) × Int) (m : Nat × Nat) =>
          let sc := (((mkScores doc opts ms).find? fun x =>
              decide (x.mStart = m.1) && decide (x.mStop = m.2)).getD
                ((mkScores doc opts ms).headD dummyScore)).score
          if acc.2 < (sc : Int) then (some m, (sc : Int)) else acc) acc m =
        (fun (acc : Option (Nat × Nat) × Int) (m : Nat × Nat) =>
          if acc.2 < (scoreOf doc opts m : Int) then (some m, (scoreOf doc opts m : Int))
          else acc) acc m := by
      intro acc m hm
      have := @lookup_score doc opts ms m (hsub m hm)
      dsimp only
      rw [this]
    refine ⟨cs.foldl (fun x y =>
        if scoreOf doc opts x < scoreOf doc opts y then y else x) c, rfl, ?_, ?_, ?_⟩
    · unfold pbmFold
      rw [List.foldl_ext _ _ _ hlookup]
      rw [List.foldl_cons]
      have hinit : (if ((none, -1) : Option (Nat × Nat) × Int).2 < (scoreOf doc opts c : Int)
          then (some c, (scoreOf doc opts c : Int)) else (none, -1)) =
          (some c, (scoreOf doc opts c : Int)) := by
        rw [if_pos]
        omega
      rw [hinit, foldl_step_eq]
    · exact foldl_choice_mem (scoreOf doc opts) cs c
    · intro m hm
      rcases List.mem_cons.mp hm with hme | hm'
      · rw [hme]
        exact foldl_max_init (scoreOf doc opts) cs c
      · exact foldl_max_mem (scoreOf doc opts) cs c m hm'

/-- **C4** (amended): `pickBestMatch` equals the declarative
`pickBestMatchSpec`: a fixed bonus per side whose surrounding characters
match the stored context up to trimming (trimmed containment at the
boundary, or raw equality — not only trimmed equality), plus a position
bonus decreasing linearly with the distance to the hint and zero beyond a
fixed scale; when context is given and some candidate matches both sides
the choice is restricted to that subset; the first candidate of maximal
score wins — ties go to the first in document order, and only when every
considered score is zero and a hint exists does the choice fall back to the
candidate nearest the hint (first in document order on equal distance). -/
theorem claim_C4_pickBestMatch (ms : List (Nat × Nat)) (doc : Chars) (opts : PickOptions) :
    pickBestMatch ms doc opts = pickBestMatchSpec ms doc opts := by
  unfold pickBestMatch pickBestMatchSpec
  by_cases h0 : ms.length = 0
  · rw [if_pos h0, if_pos h0]
  rw [if_neg h0, if_neg h0]
  by_cases h1 : ms.length = 1
  · rw [if_pos h1, if_pos h1]
  rw [if_neg h1, if_neg h1]
  dsimp only
  rw [← pbmCandidates_eq doc opts ms]
  have hmsne : ms ≠ [] := by
    intro hx
    exact h0 (by rw [hx]; rfl)
  obtain ⟨r, har, hfold, hrmem, hrmax⟩ :=
    pbmFold_eq (pbmCandidates_subset doc opts ms) (pbmCandidates_ne hmsne)
  rw [hfold, har]
  by_cases hcond : (∀ m ∈ pbmCandidates doc opts ms, scoreOf doc opts m = 0) ∧
      opts.positionHint.isSome
  · rw [if_pos hcond, if_pos ⟨by rw [hcond.1 r hrmem]; rfl,
      pbmCandidates_ne hmsne, hcond.2⟩]
    cases hh : opts.positionHint with
    | none => rw [hh] at hcond; cases hcond.2
    | some h =>
      cases hcc : pbmCandidates doc opts ms with
      | nil => exact absurd hcc (pbmCandidates_ne hmsne)
      | cons c cs => rfl
  · have hneg : ¬ ((((some r, (scoreOf doc opts r : Int)) : Option (Nat × Nat) × Int).2 ≤ 0) ∧
        pbmCandidates doc opts ms ≠ [] ∧ opts.positionHint.isSome) := by
      intro hx
      refine hcond ⟨?_, hx.2.2⟩
      intro m hm
      have hmr := hrmax m hm
      have hx1 : ((scoreOf doc opts r : Int)) ≤ 0 := hx.1
      omega
    rw [if_neg hcond, if_neg hneg]
/-- **C4** counterexample: with two candidates whose scores tie at 20 (both
context sides trivially match on empty stored context; the hint is more than
the fixed scale of 100 away from both midpoints, so the position bonus is
zero for both), `pickBestMatch` returns the *first* candidate `(0, 2)` even
though `(110, 112)` is strictly nearer the hint 300 — refuting the claimed
nearest-to-hint fallback on ties. -/
theorem claim_C4_counterexample :
    pickBestMatch [(0, 2), (110, 112)] "ab".data ⟨some 300, [], []⟩ = some (0, 2) ∧
    scoreOf "ab".data ⟨some 300, [], []⟩ (0, 2) =
      scoreOf "ab".data ⟨some 300, [], []⟩ (110, 112) ∧
    dist2 300 (110, 112) < dist2 300 (0, 2) := by
  refine ⟨by decide, by decide, by decide⟩

/-- **C5** (amended): strategy 3 first *trims* `exact`, `prefix` and
`suffix`, and searches for the concatenation of the trimmed parts.  A
single verbatim hit is used with offsets excluding the trimmed context
(`start = hit + |trim prefix|`, `end = start + |trim exact|`); with no
verbatim hit and `fuzzy` unset the result is `null`; with `fuzzy` set it
retries on the whitespace-collapsed document and needle, returning `null`
when that also misses, and on a normalized hit at `k` mapping it back to
original offsets with `normalizedToOriginalOffsets`, excluding the
normalized prefix and taking the normalized exact's length. -/
theorem claim_C5_quoteContext (doc : Chars) (q : TextQuoteSel) (hint : Option Nat)
    (fz : Bool) (i j k : Nat) :
    (trimChars q.exact ≠ [] →
      findAllNeedleMatches doc
          (trimChars q.pre ++ trimChars q.exact ++ trimChars q.suf) = [(i, j)] →
      anchorFromQuoteContext doc q hint fz =
        some (i + (trimChars q.pre).length,
              i + (trimChars q.pre).length + (trimChars q.exact).length)) ∧
    (trimChars q.exact ≠ [] →
      findAllNeedleMatches doc
          (trimChars q.pre ++ trimChars q.exact ++ trimChars q.suf) = [] →
      fz = false →
      anchorFromQuoteContext doc q hint fz = none) ∧
    (trimChars q.exact ≠ [] →
      findAllNeedleMatches doc
          (trimChars q.pre ++ trimChars q.exact ++ trimChars q.suf) = [] →
      fz = true →
      firstIdx (normalizeWs doc)
        (normalizeWs (trimChars q.pre ++ trimChars q.exact ++ trimChars q.suf)) = none →
      anchorFromQuoteContext doc q hint fz = none) ∧
    (trimChars q.exact ≠ [] →
      findAllNeedleMatches doc
          (trimChars q.pre ++ trimChars q.exact ++ trimChars q.suf) = [] →
      fz = true →
      firstIdx (normalizeWs doc)
        (normalizeWs (trimChars q.pre ++ trimChars q.exact ++ trimChars q.suf)) = some k →
      anchorFromQuoteContext doc q hint fz =
        some (normalizedToOriginalOffsets doc
          (k + (normalizeWs (trimChars q.pre)).length)
          (k + (normalizeWs (trimChars q.pre)).length +
            (normalizeWs (trimChars q.exact)).length))) := by
  refine ⟨?_, ?_, ?_, ?_⟩
  · intro hex hm
    unfold anchorFromQuoteContext
    rw [if_neg hex]
    dsimp only
    rw [hm]
    simp
  · intro hex hm hfz
    unfold anchorFromQuoteContext
    rw [if_neg hex]
    dsimp only
    rw [hm, hfz]
    simp
  · intro hex hm hfz hnorm
    unfold anchorFromQuoteContext
    rw [if_neg hex]
    dsimp only
    rw [hm, hfz, hnorm]
    simp
  · intro hex hm hfz hnorm
    unfold anchorFromQuoteContext
    rw [if_neg hex]
    dsimp only
    rw [hm, hfz, hnorm]
    simp

/-- Witness for C5: the verbatim single-hit case at document `"xabcdefy"`
with pre-trimmed context, and the fuzzy-retry success case at document
`"zabc def y"` with `exact = "c  d"` (a double space the document collapses
to one): the verbatim needle `"abc  def"` misses, the normalized needle
`"abc def"` hits the normalized document at 1, and the result maps the
normalized match back to the original offsets `(3, 6)` of `"c d"`. -/
theorem claim_C5_quoteContext_witness :
    (trimChars "cd".data ≠ [] ∧
     findAllNeedleMatches "xabcdefy".data
         (trimChars "ab".data ++ trimChars "cd".data ++ trimChars "ef".data) = [(1, 7)] ∧
     anchorFromQuoteContext "xabcdefy".data ⟨"cd".data, "ab".data, "ef".data⟩ none true =
       some (1 + (trimChars "ab".data).length,
             1 + (trimChars "ab".data).length + (trimChars "cd".data).length)) ∧
    (findAllNeedleMatches "zabc def y".data
         (trimChars "ab".data ++ trimChars "c  d".data ++ trimChars "ef".data) = [] ∧
     firstIdx (normalizeWs "zabc def y".data)
         (normalizeWs (trimChars "ab".data ++ trimChars "c  d".data ++
           trimChars "ef".data)) = some 1 ∧
     anchorFromQuoteContext "zabc def y".data ⟨"c  d".data, "ab".data, "ef".data⟩
         none true =
       some (normalizedToOriginalOffsets "zabc def y".data
         (1 + (normalizeWs (trimChars "ab".data)).length)
         (1 + (normalizeWs (trimChars "ab".data)).length +
           (normalizeWs (trimChars "c  d".data)).length)) ∧
     normalizedToOriginalOffsets "zabc def y".data 3 6 = (3, 6)) :=
  ⟨⟨by decide, by decide,
    (claim_C5_quoteContext "xabcdefy".data ⟨"cd".data, "ab".data, "ef".data⟩ none true
        1 7 0).1
      (by decide) (by decide)⟩,
   ⟨by decide, by decide,
    (claim_C5_quoteContext "zabc def y".data ⟨"c  d".data, "ab".data, "ef".data⟩ none true
        0 0 1).2.2.2
      (by decide) (by decide) rfl (by decide),
    by decide⟩⟩

/-- **C5** counterexample: document `"ab cd ef"` with stored quote
`exact = "cd"`, `prefix = "ab "`, `suffix = " ef"`.  The literal
concatenation `prefix+exact+suffix` is the whole document — one verbatim
hit at index 0, so the claimed behavior yields offsets `(3, 5)` — but the
code trims the parts, searches for `"abcdef"`, finds nothing verbatim or
after whitespace normalization, and returns `null`. -/
theorem claim_C5_counterexample :
    anchorFromQuoteContext "ab cd ef".data ⟨"cd".data, "ab ".data, " ef".data⟩ none true
        = none ∧
    findAllNeedleMatches "ab cd ef".data
        ("ab ".data ++ "cd".data ++ " ef".data) = [(0, 8)] :=
  ⟨by decide, by decide⟩


/-! ### Lemmas about match search and disambiguation -/

theorem mem_findAllAux {doc needle : Chars} :
    ∀ {fuel start : Nat} {x : Nat × Nat}, x ∈ findAllAux doc needle fuel start →
      x.2 = x.1 + needle.length := by
  intro fuel
  induction fuel with
  | zero => intro start x h; cases h
  | succ n ih =>
    intro start x h
    unfold findAllAux at h
    cases hf : firstIdx (doc.drop start) needle with
    | none => rw [hf] at h; cases h
    | some i =>
      rw [hf] at h
      rcases List.mem_cons.mp h with hx | hx
      · rw [hx]
      · exact ih hx

theorem mem_findAllExactMatches {doc q : Chars} {x : Nat × Nat}
    (h : x ∈ findAllExactMatches doc q) :
    x.2 = x.1 + (trimChars q).length ∧ trimChars q ≠ [] := by
  unfold findAllExactMatches at h
  dsimp only at h
  by_cases ht : trimChars q = []
  · rw [if_pos ht] at h
    cases h
  · rw [if_neg ht] at h
    unfold findAllNeedleMatches at h
    exact ⟨mem_findAllAux h, ht⟩

/-- Whatever `pickBestMatch` returns is one of the given matches. -/
theorem pickBestMatch_mem {ms : List (Nat × Nat)} {doc : Chars} {opts : PickOptions}
    {b : Nat × Nat} (h : pickBestMatch ms doc opts = some b) : b ∈ ms := by
  unfold pickBestMatch at h
  by_cases h0 : ms.length = 0
  · rw [if_pos h0] at h
    cases h
  rw [if_neg h0] at h
  have hmsne : ms ≠ [] := fun hx => h0 (by rw [hx]; rfl)
  by_cases h1 : ms.length = 1
  · rw [if_pos h1] at h
    cases ms with
    | nil => cases h
    | cons m t =>
      cases h
      exact List.mem_cons_self ..
  rw [if_neg h1] at h
  dsimp only at h
  obtain ⟨r, har, hfold, hrmem, hrmax⟩ :=
    pbmFold_eq (pbmCandidates_subset doc opts ms) (pbmCandidates_ne hmsne)
  rw [hfold] at h
  by_cases hcond : (((some r, (scoreOf doc opts r : Int)) : Option (Nat × Nat) × Int).2 ≤ 0 ∧
      pbmCandidates doc opts ms ≠ [] ∧ opts.positionHint.isSome)
  · rw [if_pos hcond] at h
    cases hh : opts.positionHint with
    | none =>
      rw [hh] at hcond
      exact absurd hcond.2.2 (by simp)
    | some hint =>
      rw [hh] at h
      dsimp only at h
      cases hnr : nearestReduce hint (pbmCandidates doc opts ms) with
      | none =>
        rw [hnr] at h
        cases ms with
        | nil => cases h
        | cons m t =>
          cases h
          exact List.mem_cons_self ..
      | some b' =>
        rw [hnr] at h
        have hb := Option.some.inj h
        rw [← hb]
        exact pbmCandidates_subset doc opts ms b' (nearestReduce_mem hnr)
  · rw [if_neg hcond] at h
    dsimp only at h
    have hb := Option.some.inj h
    rw [← hb]
    exact pbmCandidates_subset doc opts ms r hrmem

/-- Quote disambiguation never collapses a non-collapsed range (on a
well-formed segment table). -/
theorem disambiguateQuote_ne {range : BRange} {exq text : Chars}
    {segs : List Segment} {sel : SelectorSet} (hch : segsChainB 0 segs = true)
    (hnd : (segs.map Segment.path).Nodup) (hr : range.1 ≠ range.2) :
    (disambiguateQuote range exq text segs sel).1 ≠
      (disambiguateQuote range exq text segs sel).2 := by
  unfold disambiguateQuote
  dsimp only
  by_cases hlen : (findAllExactMatches text exq).length ≤ 1
  · rw [if_pos hlen]
    exact hr
  · rw [if_neg hlen]
    cases hbest : pickBestMatch (findAllExactMatches text exq) text
        ⟨sel.textPosition.map TextPositionSel.start,
         (sel.textQuote.map TextQuoteSel.pre).getD [],
         (sel.textQuote.map TextQuoteSel.suf).getD []⟩ with
    | none => exact hr
    | some b =>
      dsimp only
      by_cases hsame : b.1 = (rangeToOffsets segs range).1 ∧
          b.2 = (rangeToOffsets segs range).2
      · rw [if_pos hsame]
        exact hr
      · rw [if_neg hsame]
        cases ho : offsetsToRange segs b.1 b.2 with
        | none => exact hr
        | some r' =>
          obtain ⟨hlen2, hne2⟩ := mem_findAllExactMatches (pickBestMatch_mem hbest)
          have hpos : 0 < (trimChars exq).length := List.length_pos.mpr hne2
          exact offsetsToRange_ne_of_lt 0 b.1 b.2 hch hnd (Nat.zero_le _)
            (by omega) ho

theorem anchorAtt1_ne {sel : SelectorSet} {root : DNode} {r : BRange}
    (h : anchorAtt1 sel root = some r) : r.1 ≠ r.2 := by
  unfold anchorAtt1 at h
  cases hrs : sel.rangeSel with
  | none => rw [hrs] at h; cases h
  | some rs =>
    rw [hrs] at h
    dsimp only at h
    cases ha : anchorFromRangeSelector rs root
        (sel.textQuote.map fun q => trimChars q.exact) with
    | none => rw [ha] at h; cases h
    | some range =>
      rw [ha] at h
      dsimp only at h
      by_cases hc : range.1 = range.2
      · rw [if_pos hc] at h
        cases h
      · rw [if_neg hc] at h
        cases h
        exact hc

theorem anchorAtt2_ne {sel : SelectorSet} {ctx : AnchorContext} {r : BRange}
    (h : anchorAtt2 sel ctx = some r) : r.1 ≠ r.2 := by
  unfold anchorAtt2 at h
  cases hps : sel.textPosition with
  | none => rw [hps] at h; cases h
  | some ps =>
    rw [hps] at h
    dsimp only at h
    cases ha : anchorFromTextPositionSelector ps ctx.segs
        (sel.textQuote.map fun q => trimChars q.exact) with
    | none => rw [ha] at h; cases h
    | some range =>
      rw [ha] at h
      dsimp only at h
      by_cases hc : range.1 = range.2
      · rw [if_pos hc] at h
        cases h
      · rw [if_neg hc] at h
        cases h
        exact hc

theorem anchorAtt3_ne {sel : SelectorSet} {ctx : AnchorContext} {r : BRange}
    (h : anchorAtt3 sel ctx = some r) : r.1 ≠ r.2 := by
  unfold anchorAtt3 at h
  cases hq : sel.textQuote with
  | none => rw [hq] at h; cases h
  | some q =>
    rw [hq] at h
    dsimp only at h
    by_cases htx : ctx.text ≠ []
    · rw [if_pos htx] at h
      cases ha : anchorFromQuoteContext ctx.text q
          (sel.textPosition.map TextPositionSel.start) true with
      | none => rw [ha] at h; cases h
      | some off =>
        rw [ha] at h
        dsimp only at h
        cases ho : offsetsToRange ctx.segs off.1 off.2 with
        | none => rw [ho] at h; cases h
        | some range =>
          rw [ho] at h
          dsimp only at h
          by_cases hc : range.1 = range.2
          · rw [if_pos hc] at h
            cases h
          · rw [if_neg hc] at h
            cases h
            exact hc
    · rw [if_neg htx] at h
      cases h

theorem anchorAtt4_ne {sel : SelectorSet} {ctx : AnchorContext} {r : BRange}
    (h : anchorAtt4 sel ctx = some r) : r.1 ≠ r.2 := by
  unfold anchorAtt4 at h
  cases hq : sel.textQuote with
  | none => rw [hq] at h; cases h
  | some q =>
    rw [hq] at h
    dsimp only at h
    by_cases htx : ctx.text ≠ [] ∧ q.exact ≠ []
    · rw [if_pos htx] at h
      cases ha : anchorFromQuoteOnly ctx.text q.exact
          ⟨0, sel.textPosition.map TextPositionSel.start, some q.pre, some q.suf⟩ with
      | none => rw [ha] at h; cases h
      | some off =>
        rw [ha] at h
        dsimp only at h
        cases ho : offsetsToRange ctx.segs off.1 off.2 with
        | none => rw [ho] at h; cases h
        | some range =>
          rw [ho] at h
          dsimp only at h
          by_cases hc : range.1 = range.2
          · rw [if_pos hc] at h
            cases h
          · rw [if_neg hc] at h
            cases h
            exact hc
    · rw [if_neg htx] at h
      cases h

/-! ### Claims C1, C2, C6 (the resolver) -/

/-- **C1**: `Anchorer.anchor` tries the four strategies in the fixed order
structural-range, position, quote-context, quote-only, with no back-edges,
stopping at the first strategy that yields a valid non-collapsed range: if
the structural attempt succeeds the reported strategy is `range` regardless
of the other strategies; each later strategy wins exactly when every
earlier attempt fails and its own attempt succeeds. -/
theorem claim_C1_anchor_order (sel : SelectorSet) (root : DNode) (ctx : AnchorContext) :
    (∀ r, anchorAtt1 sel root = some r →
      ∃ r', anchor sel root ctx = .ok r' .range) ∧
    (anchorAtt1 sel root = none → ∀ r, anchorAtt2 sel ctx = some r →
      ∃ r', anchor sel root ctx = .ok r' .position) ∧
    (anchorAtt1 sel root = none → anchorAtt2 sel ctx = none →
      ∀ r, anchorAtt3 sel ctx = some r →
        anchor sel root ctx = .ok r .quoteContext) ∧
    (anchorAtt1 sel root = none → anchorAtt2 sel ctx = none →
      anchorAtt3 sel ctx = none → ∀ r, anchorAtt4 sel ctx = some r →
        anchor sel root ctx = .ok r .quoteOnly) := by
  refine ⟨?_, ?_, ?_, ?_⟩
  · intro r h1
    unfold anchor
    dsimp only
    rw [h1]
    exact ⟨_, rfl⟩
  · intro h1 r h2
    unfold anchor
    dsimp only
    rw [h1, h2]
    exact ⟨_, rfl⟩
  · intro h1 h2 r h3
    unfold anchor
    dsimp only
    rw [h1, h2, h3]
  · intro h1 h2 h3 r h4
    unfold anchor
    dsimp only
    rw [h1, h2, h3, h4]

/-- Witness for C1 on `<div><p>abc</p></div>` where all three selectors
independently succeed: the structural strategy wins. -/
theorem claim_C1_anchor_order_witness :
    anchorAtt1 exSel2 exRoot2 = some (([0, 0], 0), ([0, 0], 3)) ∧
    anchorAtt2 exSel2 exCtx2 = some (([0, 0], 0), ([0, 0], 3)) ∧
    anchorAtt3 exSel2 exCtx2 = some (([0, 0], 0), ([0, 0], 3)) ∧
    (∃ r', anchor exSel2 exRoot2 exCtx2 = .ok r' .range) :=
  ⟨by decide, by decide, by decide,
    (claim_C1_anchor_order exSel2 exRoot2 exCtx2).1 (([0, 0], 0), ([0, 0], 3)) (by decide)⟩

/-- **C2** (amended): a Structural (range) match is text-validated against
a present quote — any range `anchorFromRangeSelector` returns has trimmed
text equal to the trimmed quote, a mismatch returning `null` so the
resolver falls through — but a Position match is *not* validated: the
expected quote passed to `anchorFromTextPositionSelector` is ignored. -/
theorem claim_C2_quote_validation (sel : RangeSel) (root : DNode) (q : Chars)
    (ps : TextPositionSel) (segs : List Segment) (q1 q2 : Option Chars) :
    (∀ r, anchorFromRangeSelector sel root (some q) = some r →
      trimChars (rangeToString root r) = trimChars q) ∧
    anchorFromTextPositionSelector ps segs q1 =
      anchorFromTextPositionSelector ps segs q2 := by
  constructor
  · intro r h
    unfold anchorFromRangeSelector at h
    cases root with
    | text s => cases h
    | elem tag attrs cs =>
      cases h1 : nodeFromXPath sel.startPath (.elem tag attrs cs) with
      | none => rw [h1] at h; cases h
      | some pstart =>
        rw [h1] at h
        cases h2 : nodeFromXPath sel.endPath (.elem tag attrs cs) with
        | none => rw [h2] at h; cases h
        | some pend =>
          rw [h2] at h
          dsimp only at h
          cases h3 : subtreeAt (.elem tag attrs cs) pstart with
          | none => rw [h3] at h; cases h
          | some startEl =>
            rw [h3] at h
            cases h4 : subtreeAt (.elem tag attrs cs) pend with
            | none => rw [h4] at h; cases h
            | some endEl =>
              rw [h4] at h
              dsimp only at h
              cases h5 : offsetInElementToDomPosition startEl sel.startOffset with
              | none => rw [h5] at h; cases h
              | some sp =>
                rw [h5] at h
                cases h6 : offsetInElementToDomPosition endEl sel.endOffset with
                | none => rw [h6] at h; cases h
                | some ep =>
                  rw [h6] at h
                  dsimp only at h
                  by_cases h7 : trimChars (rangeToString (.elem tag attrs cs)
                      (mkDomRange (pstart ++ sp.1, sp.2) (pend ++ ep.1, ep.2))) ≠
                      trimChars q
                  · rw [if_pos h7] at h
                    cases h
                  · rw [if_neg h7] at h
                    have hr := Option.some.inj h
                    rw [← hr]
                    exact not_ne_iff.mp h7
  · rfl

/-- Witness for C2: the structural strategy resolves on
`<div><p>abc</p></div>` with quote `"abc"` and the returned range's text
equals the quote; the position strategy result is quote-independent. -/
theorem claim_C2_quote_validation_witness :
    anchorFromRangeSelector exRangeSel2 exRoot2 (some "abc".data) =
      some (([0, 0], 0), ([0, 0], 3)) ∧
    trimChars (rangeToString exRoot2 (([0, 0], 0), ([0, 0], 3))) =
      trimChars "abc".data ∧
    anchorFromTextPositionSelector ⟨0, 2⟩ exCtx1.segs (some "zz".data) =
      anchorFromTextPositionSelector ⟨0, 2⟩ exCtx1.segs none :=
  ⟨by decide,
    (claim_C2_quote_validation exRangeSel2 exRoot2 "abc".data ⟨0, 2⟩ exCtx1.segs
      (some "zz".data) none).1 (([0, 0], 0), ([0, 0], 3)) (by decide),
    (claim_C2_quote_validation exRangeSel2 exRoot2 "abc".data ⟨0, 2⟩ exCtx1.segs
      (some "zz".data) none).2⟩

/-- **C2** counterexample: on `<div>abcdef</div>` with stored position
`(0, 2)` and quote `"zz"` (absent from the document), the claim requires
the mismatching Position match to be rejected and to fall through (all
remaining strategies fail, so anchoring should fail); instead the resolver
reports success with strategy `position` on a range whose text `"ab"`
differs from the quote. -/
theorem claim_C2_counterexample :
    anchor exSel1 exRoot1 exCtx1 = .ok (([0], 0), ([0], 2)) .position ∧
    trimChars (rangeToString exRoot1 (([0], 0), ([0], 2))) ≠ trimChars "zz".data :=
  ⟨by decide, by decide⟩

/-- **C6**: on a well-formed segment table the resolver never reports a
collapsed range as a successful anchor, and when all four strategy attempts
fail it returns the definitive failure whose error names all four
strategies (`range, position, quote-context, quote-only`) — never a guessed
range. -/
theorem claim_C6_failure_contract (sel : SelectorSet) (root : DNode)
    (ctx : AnchorContext) (hch : segsChainB 0 ctx.segs = true)
    (hnd : (ctx.segs.map Segment.path).Nodup) :
    (∀ r s, anchor sel root ctx = .ok r s → r.1 ≠ r.2) ∧
    (anchorAtt1 sel root = none → anchorAtt2 sel ctx = none →
      anchorAtt3 sel ctx = none → anchorAtt4 sel ctx = none →
      anchor sel root ctx = .fail anchorFailMsg) := by
  constructor
  · intro r s h
    unfold anchor at h
    dsimp only at h
    cases h1 : anchorAtt1 sel root with
    | some range =>
      rw [h1] at h
      dsimp only at h
      have hne := anchorAtt1_ne h1
      have hrr := (AnchorResult.ok.injEq .. ▸ h : _ ∧ _).1
      rw [← hrr]
      split
      · exact disambiguateQuote_ne hch hnd hne
      · exact hne
    | none =>
      rw [h1] at h
      cases h2 : anchorAtt2 sel ctx with
      | some range =>
        rw [h2] at h
        dsimp only at h
        have hne := anchorAtt2_ne h2
        have hrr := (AnchorResult.ok.injEq .. ▸ h : _ ∧ _).1
        rw [← hrr]
        split
        · exact disambiguateQuote_ne hch hnd hne
        · exact hne
      | none =>
        rw [h2] at h
        cases h3 : anchorAtt3 sel ctx with
        | some range =>
          rw [h3] at h
          have hne := anchorAtt3_ne h3
          have hrr := (AnchorResult.ok.injEq .. ▸ h : _ ∧ _).1
          rw [← hrr]
          exact hne
        | none =>
          rw [h3] at h
          cases h4 : anchorAtt4 sel ctx with
          | some range =>
            rw [h4] at h
            have hne := anchorAtt4_ne h4
            have hrr := (AnchorResult.ok.injEq .. ▸ h : _ ∧ _).1
            rw [← hrr]
            exact hne
          | none =>
            rw [h4] at h
            cases h
  · intro h1 h2 h3 h4
    unfold anchor
    dsimp only
    rw [h1, h2, h3, h4]

/-- Witness for C6: the success conjunct applied on `<div>abcdef</div>`
(position success, non-collapsed boundaries) and the failure conjunct on
`<div><p>abc</p></div>` with entirely invalid selectors. -/
theorem claim_C6_failure_contract_witness :
    (anchor exSel1 exRoot1 exCtx1 = .ok (([0], 0), ([0], 2)) .position ∧
      ((([0], 0) : BPoint) ≠ (([0], 2) : BPoint))) ∧
    anchor exSel3 exRoot2 exCtx2 = .fail anchorFailMsg :=
  ⟨⟨by decide,
    (claim_C6_failure_contract exSel1 exRoot1 exCtx1 (by decide) (by decide)).1
      (([0], 0), ([0], 2)) .position (by decide)⟩,
   (claim_C6_failure_contract exSel3 exRoot2 exCtx2 (by decide) (by decide)).2
     (by decide) (by decide) (by decide) (by decide)⟩

theorem nodeSize_le_of_mem {c : DNode} : ∀ {l : List DNode}, c ∈ l → nodeSize c ≤ nodeListSize l := by
  intro l h
  induction l with
  | nil => exact absurd h (List.not_mem_nil c)
  | cons d rest ih =>
    rcases List.mem_cons.mp h with h1 | h2
    · rw [h1]
      simp only [nodeListSize]
      exact Nat.le_add_right _ _
    · calc nodeSize c ≤ nodeListSize rest := ih h2
        _ ≤ nodeListSize (d :: rest) := by
            simp only [nodeListSize]; exact Nat.le_add_left _ _

theorem mem_textLeavesList_intro : ∀ (l : List DNode) (i j : Nat) (c : DNode)
    (q : List Nat) (u : Chars), l.get? j = some c → (q, u) ∈ textLeaves c →
    ((i + j) :: q, u) ∈ textLeavesList l i := by
  intro l
  induction l with
  | nil => intro i j c q u hg _; simp at hg
  | cons d rest ih =>
    intro i j c q u hg hm
    cases j with
    | zero =>
      have hc : d = c := by simpa using hg
      simp only [textLeavesList, List.mem_append]
      left
      rw [List.mem_map]
      exact ⟨(q, u), hc ▸ hm, by simp⟩
    | succ j' =>
      have hg' : rest.get? j' = some c := by simpa using hg
      simp only [textLeavesList, List.mem_append]
      right
      have hmem := ih (i + 1) j' c q u hg' hm
      have harith : i + 1 + j' = i + (j' + 1) := by omega
      rw [harith] at hmem
      exact hmem

theorem mem_textLeavesList_elim : ∀ (l : List DNode) (i : Nat) (q : List Nat) (u : Chars),
    (q, u) ∈ textLeavesList l i →
    ∃ j c v, q = (i + j) :: v ∧ l.get? j = some c ∧ (v, u) ∈ textLeaves c := by
  intro l
  induction l with
  | nil => intro i q u h; simp [textLeavesList] at h
  | cons d rest ih =>
    intro i q u h
    simp only [textLeavesList, List.mem_append] at h
    rcases h with h | h
    · rw [List.mem_map] at h
      obtain ⟨⟨v, u'⟩, hm, he⟩ := h
      dsimp only at he
      cases he
      exact ⟨0, d, v, by simp, rfl, hm⟩
    · obtain ⟨j, c, v, hq, hg, hm⟩ := ih (i + 1) q u h
      have harith : i + 1 + j = i + (j + 1) := by omega
      rw [harith] at hq
      exact ⟨j + 1, c, v, hq, by simpa using hg, hm⟩

theorem textLeaves_subtreeAt : ∀ (q : List Nat) (n : DNode) (u : Chars),
    (q, u) ∈ textLeaves n → subtreeAt n q = some (.text u) := by
  intro q
  induction q with
  | nil =>
    intro n u h
    cases n with
    | text s =>
      simp only [textLeaves, List.mem_singleton] at h
      cases h
      rfl
    | elem g a cs =>
      simp only [textLeaves] at h
      obtain ⟨j, c, v, hq, _, _⟩ := mem_textLeavesList_elim cs 0 [] u h
      exact absurd hq (by simp)
  | cons j q' ih =>
    intro n u h
    cases n with
    | text s =>
      simp only [textLeaves, List.mem_singleton] at h
      have := congrArg Prod.fst h
      simp at this
    | elem g a cs =>
      simp only [textLeaves] at h
      obtain ⟨j', c, v, hq, hg, hm⟩ := mem_textLeavesList_elim cs 0 (j :: q') u h
      rw [Nat.zero_add] at hq
      injection hq with hj hv
      rw [← hj] at hg
      rw [← hv] at hm
      simp only [subtreeAt, hg]
      exact ih c u hm

theorem subtreeAt_append : ∀ (p q : List Nat) (n : DNode),
    subtreeAt n (p ++ q) = (subtreeAt n p).bind fun m => subtreeAt m q := by
  intro p
  induction p with
  | nil => intro q n; rw [List.nil_append]; simp only [subtreeAt, Option.some_bind]
  | cons i p' ih =>
    intro q n
    cases n with
    | text s => rfl
    | elem g a cs =>
      show subtreeAt (.elem g a cs) (i :: (p' ++ q)) = _
      cases hg : cs.get? i with
      | none => simp only [subtreeAt, hg]; rfl
      | some c => simp only [subtreeAt, hg]; exact ih q c

theorem mem_collectWalkList_elim : ∀ (l : List DNode) (r : BRange) (p : List Nat)
    (i : Nat) (seg : TextSeg), seg ∈ collectWalkList r l p i →
    ∃ j c, l.get? j = some c ∧ seg ∈ collectWalk r c (p ++ [i + j]) := by
  intro l
  induction l with
  | nil => intro r p i seg h; simp [collectWalkList] at h
  | cons d rest ih =>
    intro r p i seg h
    simp only [collectWalkList, List.mem_append] at h
    rcases h with h | h
    · exact ⟨0, d, rfl, by simpa using h⟩
    · obtain ⟨j, c, hg, hm⟩ := ih r p (i + 1) seg h
      have harith : i + 1 + j = i + (j + 1) := by omega
      rw [harith] at hm
      exact ⟨j + 1, c, by simpa using hg, hm⟩

theorem mem_collectWalk_aux : ∀ (k : Nat) (n : DNode), nodeSize n ≤ k →
    ∀ (r : BRange) (p : List Nat) (seg : TextSeg), seg ∈ collectWalk r n p →
    ∃ q u, (q, u) ∈ textLeaves n ∧ seg.path = p ++ q ∧
      getTextNodeSlice r seg.path u = some (seg.sliceStart, seg.sliceStop) ∧
      trimChars (sliceChars u seg.sliceStart seg.sliceStop) ≠ [] := by
  intro k
  induction k with
  | zero =>
    intro n hn
    exfalso
    cases n <;> simp [nodeSize] at hn
  | succ k ih =>
    intro n hn r p seg h
    cases n with
    | text u =>
      simp only [collectWalk] at h
      split at h
      · simp at h
      · cases hsl : getTextNodeSlice r p u with
        | none => rw [hsl] at h; simp at h
        | some se =>
          obtain ⟨s, e⟩ := se
          rw [hsl] at h
          dsimp only at h
          split at h
          · next htr =>
            rw [List.mem_singleton] at h
            refine ⟨[], u, by simp [textLeaves], ?_, ?_, ?_⟩
            · rw [h]; simp
            · rw [h]
              simpa using hsl
            · rw [h]
              intro hx
              rw [hx] at htr
              simp at htr
          · simp at h
    | elem g a cs =>
      simp only [collectWalk] at h
      split at h
      · simp at h
      · rw [ite_self] at h
        obtain ⟨j, c, hg, hm⟩ := mem_collectWalkList_elim cs r p 0 seg h
        have hsz : nodeSize c ≤ k := by
          have h1 := nodeSize_le_of_mem (List.get?_mem hg)
          simp only [nodeSize] at hn
          omega
        obtain ⟨q, u, hql, hpath, hslice, htrim⟩ := ih c hsz r (p ++ [0 + j]) seg hm
        refine ⟨j :: q, u, ?_, ?_, hslice, htrim⟩
        · simp only [textLeaves]
          have := mem_textLeavesList_intro cs 0 j c q u hg hql
          simpa using this
        · rw [hpath]
          simp

theorem mem_collectWalk (n : DNode) (r : BRange) (p : List Nat) (seg : TextSeg)
    (h : seg ∈ collectWalk r n p) :
    ∃ q u, (q, u) ∈ textLeaves n ∧ seg.path = p ++ q ∧
      getTextNodeSlice r seg.path u = some (seg.sliceStart, seg.sliceStop) ∧
      trimChars (sliceChars u seg.sliceStart seg.sliceStop) ≠ [] :=
  mem_collectWalk_aux (nodeSize n) n (Nat.le_refl _) r p seg h

theorem getLast?_none_eq_nil : ∀ (l : List Nat), l.getLast? = none → l = [] := by
  intro l
  induction l with
  | nil => intro _; rfl
  | cons a rest ih =>
    intro h
    cases rest with
    | nil => simp at h
    | cons b rest' =>
      rw [List.getLast?_cons_cons] at h
      exact absurd (ih h) (by simp)

theorem dropLast_append_of_getLast : ∀ (l : List Nat) (i : Nat),
    l.getLast? = some i → l.dropLast ++ [i] = l := by
  intro l
  induction l with
  | nil => intro i h; simp at h
  | cons a rest ih =>
    intro i h
    cases rest with
    | nil =>
      have : a = i := by simpa using h
      rw [this]
      rfl
    | cons b rest' =>
      rw [List.getLast?_cons_cons] at h
      have := ih i h
      simp only [List.dropLast_cons₂, List.cons_append]
      rw [this]

theorem updateChildren_isSome : ∀ (p : List Nat) (n : DNode) (i : Nat)
    (f : List DNode → Option (List DNode)),
    (subtreeAt n (p ++ [i])).isSome →
    (∀ l : List DNode, (l.get? i).isSome → (f l).isSome) →
    (updateChildren p n f).isSome := by
  intro p
  induction p with
  | nil =>
    intro n i f hs hf
    cases n with
    | text s => simp [subtreeAt] at hs
    | elem g a cs =>
      rw [List.nil_append] at hs
      have hg : (cs.get? i).isSome := by
        cases hgi : cs.get? i with
        | none => rw [show subtreeAt (DNode.elem g a cs) [i] =
            (match cs.get? i with
             | some c => subtreeAt c []
             | none => none) from rfl, hgi] at hs; simp at hs
        | some c => rfl
      have hfc := hf cs hg
      simp only [updateChildren]
      cases hfcs : f cs with
      | none => rw [hfcs] at hfc; simp at hfc
      | some cs' => rfl
  | cons j p' ih =>
    intro n i f hs hf
    cases n with
    | text s => simp [subtreeAt] at hs
    | elem g a cs =>
      rw [List.cons_append] at hs
      cases hg : cs.get? j with
      | none =>
        rw [show subtreeAt (DNode.elem g a cs) (j :: (p' ++ [i])) =
            (match cs.get? j with
             | some c => subtreeAt c (p' ++ [i])
             | none => none) from rfl, hg] at hs
        simp at hs
      | some c =>
        rw [show subtreeAt (DNode.elem g a cs) (j :: (p' ++ [i])) =
            (match cs.get? j with
             | some c => subtreeAt c (p' ++ [i])
             | none => none) from rfl, hg] at hs
        have hrec := ih c i f hs hf
        simp only [updateChildren, hg]
        cases hu : updateChildren p' c f with
        | none => rw [hu] at hrec; simp at hrec
        | some c' => rfl

theorem nodeFlatTextList_append : ∀ (l₁ l₂ : List DNode),
    nodeFlatTextList (l₁ ++ l₂) = nodeFlatTextList l₁ ++ nodeFlatTextList l₂ := by
  intro l₁
  induction l₁ with
  | nil => intro l₂; rfl
  | cons c rest ih =>
    intro l₂
    show nodeFlatText c ++ nodeFlatTextList (rest ++ l₂) =
      nodeFlatText c ++ nodeFlatTextList rest ++ nodeFlatTextList l₂
    rw [ih, List.append_assoc]

theorem nodeFlatTextList_set : ∀ (l : List DNode) (i : Nat) (c c' : DNode),
    l.get? i = some c → nodeFlatText c' = nodeFlatText c →
    nodeFlatTextList (l.set i c') = nodeFlatTextList l := by
  intro l
  induction l with
  | nil => intro i c c' hg _; simp at hg
  | cons d rest ih =>
    intro i c c' hg hfl
    cases i with
    | zero =>
      have hd : d = c := by simpa using hg
      simp only [List.set, nodeFlatTextList]
      rw [hfl, hd]
    | succ i' =>
      simp only [List.set, nodeFlatTextList]
      rw [ih i' c c' (by simpa using hg) hfl]

theorem updateChildren_flat : ∀ (p : List Nat) (n : DNode)
    (f : List DNode → Option (List DNode)) (m : DNode),
    updateChildren p n f = some m →
    (∀ g a l l', subtreeAt n p = some (.elem g a l) → f l = some l' →
      nodeFlatTextList l' = nodeFlatTextList l) →
    nodeFlatText m = nodeFlatText n := by
  intro p
  induction p with
  | nil =>
    intro n f m hu hf
    cases n with
    | text s => simp [updateChildren] at hu
    | elem g a cs =>
      simp only [updateChildren] at hu
      cases hfc : f cs with
      | none => rw [hfc] at hu; simp at hu
      | some cs' =>
        rw [hfc] at hu
        dsimp only at hu
        have hm := Option.some.inj hu
        rw [← hm]
        have hpres := hf g a cs cs' rfl hfc
        simp only [nodeFlatText]
        exact hpres
  | cons j p' ih =>
    intro n f m hu hf
    cases n with
    | text s => simp [updateChildren] at hu
    | elem g a cs =>
      simp only [updateChildren] at hu
      cases hg : cs.get? j with
      | none => rw [hg] at hu; simp at hu
      | some c =>
        rw [hg] at hu
        dsimp only at hu
        cases hc' : updateChildren p' c f with
        | none => rw [hc'] at hu; simp at hu
        | some c' =>
          rw [hc'] at hu
          dsimp only at hu
          have hm := Option.some.inj hu
          rw [← hm]
          have hflat : nodeFlatText c' = nodeFlatText c := by
            apply ih c f c' hc'
            intro g' a' l l' hsub hfl
            apply hf g' a' l l' ?_ hfl
            rw [show subtreeAt (DNode.elem g a cs) (j :: p') =
                (match cs.get? j with
                 | some cc => subtreeAt cc p'
                 | none => none) from rfl, hg]
            exact hsub
          simp only [nodeFlatText]
          exact nodeFlatTextList_set cs j c c' hg hflat

theorem trimChars_ne_nil_of_ne {x : Chars} (h : trimChars x ≠ []) : x ≠ [] := by
  intro hx
  rw [hx] at h
  exact h rfl

theorem slice_decomp (d : Chars) (s e : Nat) (hne : sliceChars d s e ≠ []) :
    sliceChars d 0 s ++ sliceChars d s e ++ sliceFrom d e = d := by
  have hse : s < e := by
    by_contra hc
    push_neg at hc
    apply hne
    simp [sliceChars, Nat.sub_eq_zero_of_le hc]
  have h1 : sliceFrom d e = (d.drop s).drop (e - s) := by
    rw [List.drop_drop]
    show d.drop e = d.drop (s + (e - s))
    congr 1
    omega
  have h2 : sliceChars d 0 s = d.take s := by
    simp [sliceChars]
  rw [h1, h2, List.append_assoc]
  show d.take s ++ ((d.drop s).take (e - s) ++ (d.drop s).drop (e - s)) = d
  rw [List.take_append_drop, List.take_append_drop]

/-- The three-node replacement `wrapTextSegment` splices in carries exactly
the original node's characters. -/
theorem repl_flat (d : Chars) (s e : Nat) (annId : String) (opts : HighlightOptions)
    (hne : sliceChars d s e ≠ []) :
    nodeFlatTextList
      ((if s > 0 then [DNode.text (sliceChars d 0 s)] else []) ++
        [DNode.elem "span" (spanAttrs annId opts) [.text (sliceChars d s e)]] ++
        (if d.length - e > 0 then [DNode.text (sliceFrom d e)] else [])) = d := by
  have hdecomp := slice_decomp d s e hne
  have hspan : nodeFlatTextList
      [DNode.elem "span" (spanAttrs annId opts) [.text (sliceChars d s e)]] =
      sliceChars d s e := by
    simp [nodeFlatTextList, nodeFlatText]
  have hA : nodeFlatTextList
      (if s > 0 then [DNode.text (sliceChars d 0 s)] else []) = sliceChars d 0 s := by
    by_cases hb : s > 0
    · rw [if_pos hb]
      simp [nodeFlatTextList, nodeFlatText]
    · rw [if_neg hb]
      have hs0 : s = 0 := by omega
      rw [hs0]
      show ([] : Chars) = sliceChars d 0 0
      simp [sliceChars]
  have hB : nodeFlatTextList
      (if d.length - e > 0 then [DNode.text (sliceFrom d e)] else []) =
      sliceFrom d e := by
    by_cases ha : d.length - e > 0
    · rw [if_pos ha]
      simp [nodeFlatTextList, nodeFlatText]
    · rw [if_neg ha]
      have hle : d.length ≤ e := by omega
      have hdz : sliceFrom d e = [] := by
        simp [sliceFrom, List.drop_eq_nil_of_le hle]
      rw [hdz]
      rfl
  rw [nodeFlatTextList_append, nodeFlatTextList_append, hspan, hA, hB]
  exact hdecomp

/-- A successful `wrapTextSegment` preserves the tree's concatenated text. -/
theorem wrap_flat (n : DNode) (seg : TextSeg) (annId : String)
    (opts : HighlightOptions) (m : DNode)
    (h : wrapTextSegment n seg annId opts = some m) :
    nodeFlatText m = nodeFlatText n := by
  unfold wrapTextSegment at h
  cases hsub : subtreeAt n seg.path with
  | none => rw [hsub] at h; simp at h
  | some nd =>
    rw [hsub] at h
    cases nd with
    | elem g a cs => simp at h
    | text d =>
      dsimp only at h
      split at h
      · simp at h
      · next htrim =>
        cases hlast : seg.path.getLast? with
        | none => rw [hlast] at h; simp at h
        | some i =>
          rw [hlast] at h
          dsimp only at h
          apply updateChildren_flat seg.path.dropLast n _ m h
          intro g' a' l l' hsub' hfl
          have hpath : seg.path.dropLast ++ [i] = seg.path :=
            dropLast_append_of_getLast seg.path i hlast
          have hbind := subtreeAt_append seg.path.dropLast [i] n
          rw [hpath, hsub, hsub', Option.some_bind] at hbind
          have hget : l.get? i = some (.text d) := by
            rw [show subtreeAt (DNode.elem g' a' l) [i] =
                (match l.get? i with
                 | some c => subtreeAt c []
                 | none => none) from rfl] at hbind
            cases hgi : l.get? i with
            | none => rw [hgi] at hbind; simp at hbind
            | some c =>
              rw [hgi] at hbind
              simp only [subtreeAt] at hbind
              rw [← Option.some.inj hbind]
          obtain ⟨hlen, -⟩ := List.get?_eq_some.mp hget
          rw [if_pos hlen] at hfl
          rw [← Option.some.inj hfl]
          rw [nodeFlatTextList_append, nodeFlatTextList_append]
          have hmid : sliceChars d seg.sliceStart seg.sliceStop ≠ [] :=
            trimChars_ne_nil_of_ne htrim
          rw [repl_flat d seg.sliceStart seg.sliceStop annId opts hmid]
          have hdec : l = l.take i ++ DNode.text d :: l.drop (i + 1) := by
            conv_lhs => rw [← List.take_append_drop i l]
            congr 1
            rw [List.drop_eq_get_cons hlen]
            congr 1
            obtain ⟨hlen2, hv⟩ := List.get?_eq_some.mp hget
            rw [← hv]
          conv_rhs => rw [hdec]
          rw [nodeFlatTextList_append]
          show _ = _ ++ (nodeFlatText (DNode.text d) ++ nodeFlatTextList (l.drop (i + 1)))
          show _ = _ ++ (d ++ nodeFlatTextList (l.drop (i + 1)))
          rw [List.append_assoc]

/-- `wrapTextSegment` succeeds whenever the path addresses a text node below
some parent and the slice is not blank. -/
theorem wrap_isSome (n : DNode) (seg : TextSeg) (annId : String)
    (opts : HighlightOptions) (u : Chars)
    (hsub : subtreeAt n seg.path = some (.text u))
    (hpne : seg.path ≠ [])
    (htrim : trimChars (sliceChars u seg.sliceStart seg.sliceStop) ≠ []) :
    (wrapTextSegment n seg annId opts).isSome := by
  unfold wrapTextSegment
  rw [hsub]
  dsimp only
  rw [if_neg htrim]
  cases hlast : seg.path.getLast? with
  | none => exact absurd (getLast?_none_eq_nil seg.path hlast) hpne
  | some i =>
    dsimp only
    apply updateChildren_isSome
    · rw [dropLast_append_of_getLast seg.path i hlast, hsub]
      rfl
    · intro l hl
      dsimp only
      rw [if_pos]
      · rfl
      · by_contra hlt
        push_neg at hlt
        rw [List.get?_eq_none.mpr hlt] at hl
        simp at hl

/-- The wrapping fold of `highlightRange` preserves the flat text. -/
theorem hrFold_flat : ∀ (l : List TextSeg) (annId : String) (opts : HighlightOptions)
    (acc : DNode × Bool) (base : Chars), nodeFlatText acc.1 = base →
    nodeFlatText ((l.foldl
      (fun acc seg =>
        match wrapTextSegment acc.1 seg annId opts with
        | some t' => (t', true)
        | none => acc) acc)).1 = base := by
  intro l
  induction l with
  | nil => intro _ _ acc base hb; exact hb
  | cons seg rest ih =>
    intro annId opts acc base hb
    rw [List.foldl_cons]
    cases hw : wrapTextSegment acc.1 seg annId opts with
    | none =>
      exact ih annId opts acc base hb
    | some t' =>
      exact ih annId opts (t', true) base
        (by rw [show ((t', true) : DNode × Bool).1 = t' from rfl,
          wrap_flat acc.1 seg annId opts t' hw]; exact hb)

/-- Once a wrap has succeeded, the fold's flag stays `true`. -/
theorem hrFold_snd_true : ∀ (l : List TextSeg) (annId : String)
    (opts : HighlightOptions) (acc : DNode × Bool), acc.2 = true →
    ((l.foldl
      (fun acc seg =>
        match wrapTextSegment acc.1 seg annId opts with
        | some t' => (t', true)
        | none => acc) acc)).2 = true := by
  intro l
  induction l with
  | nil => intro _ _ acc hb; exact hb
  | cons seg rest ih =>
    intro annId opts acc hb
    rw [List.foldl_cons]
    cases hw : wrapTextSegment acc.1 seg annId opts with
    | none =>
      exact ih annId opts acc hb
    | some t' =>
      exact ih annId opts (t', true) rfl

/-- **C10** (implicit): `highlightRange` preserves the document's
concatenated text content — each wrapped text node is replaced in place by
an optional unmarked prefix text node, the marker span holding exactly the
marked slice, and an optional unmarked suffix whose concatenated characters
equal the original node's data (conjunct 2, for every successful
`wrapTextSegment`), and the reverse-order wrapping fold therefore leaves
the flat document text identical (conjunct 1, unconditionally). -/
theorem claim_C10_text_preservation (tree : DNode) (r : BRange) (annId : String)
    (opts : HighlightOptions) (seg : TextSeg) (u : DNode) :
    nodeFlatText (highlightRange tree r annId opts).1 = nodeFlatText tree ∧
    (wrapTextSegment tree seg annId opts = some u →
      nodeFlatText u = nodeFlatText tree) := by
  constructor
  · unfold highlightRange
    split
    · rfl
    · dsimp only
      split
      · rfl
      · exact hrFold_flat _ annId opts (tree, false) _ rfl
  · intro h
    exact wrap_flat tree seg annId opts u h

theorem claim_C10_text_preservation_witness :
    wrapTextSegment exW ⟨[0], 1, 3⟩ "id7" ⟨some "underline", some "#ff0"⟩ = some exW10 ∧
    nodeFlatText (highlightRange exW (([0], 1), ([0], 3)) "id7"
      ⟨some "underline", some "#ff0"⟩).1 = nodeFlatText exW ∧
    nodeFlatText exW10 = nodeFlatText exW := by
  have h := claim_C10_text_preservation exW (([0], 1), ([0], 3)) "id7"
    ⟨some "underline", some "#ff0"⟩ ⟨[0], 1, 3⟩ exW10
  exact ⟨rfl, h.1, h.2 rfl⟩

/-- **C8**: marking a non-collapsed range whose intersection with every text
node under the walk root is whitespace-only or empty marks nothing —
`highlightRange` returns the unchanged tree with `false` (a value, never an
exception: the embedding is total); and for an element root it returns
`true` exactly when the collected segment list is nonempty, i.e. when at
least one slice was marked. -/
theorem claim_C8_whitespace_marking (tree : DNode) (r : BRange) (annId : String)
    (opts : HighlightOptions) :
    ((∀ q u, (q, u) ∈ hrLeaves tree r → ∀ s e,
        getTextNodeSlice r (hrWalkRootPath tree r ++ q) u = some (s, e) →
        trimChars (sliceChars u s e) = []) →
      highlightRange tree r annId opts = (tree, false)) ∧
    ((∃ g a cs, tree = DNode.elem g a cs) → r.1 ≠ r.2 →
      ((highlightRange tree r annId opts).2 = true ↔ hrSegs tree r ≠ [])) := by
  have hsegs_mem : ∀ seg, seg ∈ hrSegs tree r →
      ∃ q u, (q, u) ∈ hrLeaves tree r ∧
        seg.path = hrWalkRootPath tree r ++ q ∧
        getTextNodeSlice r seg.path u = some (seg.sliceStart, seg.sliceStop) ∧
        trimChars (sliceChars u seg.sliceStart seg.sliceStop) ≠ [] := by
    intro seg hmem
    unfold hrSegs at hmem
    cases hsub : subtreeAt tree (hrWalkRootPath tree r) with
    | none => rw [hsub] at hmem; simp at hmem
    | some n =>
      rw [hsub] at hmem
      dsimp only at hmem
      obtain ⟨q, u, hql, hpath, hslice, htrim⟩ :=
        mem_collectWalk n r (hrWalkRootPath tree r) seg hmem
      refine ⟨q, u, ?_, hpath, hslice, htrim⟩
      unfold hrLeaves
      rw [hsub]
      exact hql
  constructor
  · intro hws
    by_cases hc : r.1 = r.2
    · unfold highlightRange
      rw [if_pos hc]
    · have hnil : hrSegs tree r = [] := by
        rw [List.eq_nil_iff_forall_not_mem]
        intro seg hmem
        obtain ⟨q, u, hql, hpath, hslice, htrim⟩ := hsegs_mem seg hmem
        rw [hpath] at hslice
        exact htrim (hws q u hql seg.sliceStart seg.sliceStop hslice)
      unfold highlightRange
      rw [if_neg hc]
      dsimp only
      rw [if_pos (by rw [hnil]; rfl)]
  · intro htree hnc
    constructor
    · intro htrue hnil
      unfold highlightRange at htrue
      rw [if_neg hnc] at htrue
      dsimp only at htrue
      rw [if_pos (by rw [hnil]; rfl)] at htrue
      simp at htrue
    · intro hne
      obtain ⟨g, a, cs, htree_eq⟩ := htree
      cases hrev : (hrSegs tree r).reverse with
      | nil =>
        exact absurd (by
          have := congrArg List.reverse hrev
          rw [List.reverse_reverse] at this
          exact this) hne
      | cons s0 rest =>
        have hs0 : s0 ∈ hrSegs tree r := by
          rw [← List.mem_reverse, hrev]
          exact List.mem_cons_self s0 rest
        obtain ⟨q, u, hql, hpath, hslice, htrim⟩ := hsegs_mem s0 hs0
        have hsub0 : subtreeAt tree s0.path = some (.text u) := by
          unfold hrLeaves at hql
          cases hsub : subtreeAt tree (hrWalkRootPath tree r) with
          | none => rw [hsub] at hql; simp at hql
          | some n =>
            rw [hsub] at hql
            dsimp only at hql
            rw [hpath, subtreeAt_append, hsub, Option.some_bind]
            exact textLeaves_subtreeAt q n u hql
        have hpne : s0.path ≠ [] := by
          intro h0
          rw [h0, htree_eq] at hsub0
          simp [subtreeAt] at hsub0
        have hw := wrap_isSome tree s0 annId opts u hsub0 hpne htrim
        unfold highlightRange
        rw [if_neg hnc]
        dsimp only
        rw [if_neg (by
          intro h0
          exact hne (List.length_eq_zero.mp h0))]
        rw [hrev, List.foldl_cons]
        cases hwc : wrapTextSegment tree s0 annId opts with
        | none => rw [hwc] at hw; simp at hw
        | some t' =>
          exact hrFold_snd_true rest annId opts (t', true) rfl

theorem claim_C8_whitespace_marking_witness :
    highlightRange exWs exWsR "a1" ⟨none, none⟩ = (exWs, false) ∧
    ((highlightRange exHl exHlR "a1" ⟨none, none⟩).2 = true ↔
      hrSegs exHl exHlR ≠ []) := by
  constructor
  · apply (claim_C8_whitespace_marking exWs exWsR "a1" ⟨none, none⟩).1
    intro q u hql s e hse
    rw [show hrLeaves exWs exWsR =
      [([0], ['a']), ([1], [' ', ' ']), ([2], ['b'])] from rfl] at hql
    rw [show hrWalkRootPath exWs exWsR = ([] : List Nat) from rfl,
      List.nil_append] at hse
    simp only [List.mem_cons, List.not_mem_nil, or_false] at hql
    rcases hql with hql | hql | hql <;> cases hql
    · rw [show getTextNodeSlice exWsR [0] ['a'] = none from rfl] at hse
      exact absurd hse (by simp)
    · rw [show getTextNodeSlice exWsR [1] [' ', ' '] = some (0, 2) from rfl] at hse
      cases Option.some.inj hse
      rfl
    · rw [show getTextNodeSlice exWsR [2] ['b'] = none from rfl] at hse
      exact absurd hse (by simp)
  · exact (claim_C8_whitespace_marking exHl exHlR "a1" ⟨none, none⟩).2
      ⟨"div", [], _, rfl⟩ (by decide)

/-- **C3** (claim refuted by the code): on `<div>x<b>y</b>z</div>` with the
range from the start of `x` to the end of `z`, the `<b>` element is fully
contained by the range (`rangeFullyContainsElement` holds before the walk
descends), yet after `highlightRange` the `<b>` element carries no class or
data attribute and its text has been wrapped in a highlight `<span>` inside
it — the walk descends into fully-contained elements and wraps their text
runs instead of tagging the element in place, contradicting the claimed
(and doc-commented) direct tagging without descent. -/
theorem claim_C3_container_tagging :
    rangeFullyContainsElement exHlR [1] 1 = true ∧
    highlightRange exHl exHlR "a1" ⟨none, none⟩ =
      (DNode.elem "div" []
        [.elem "span" [("class", highlightClass), ("data-annotation-id", "a1")]
          [.text ['x']],
         .elem "b" []
          [.elem "span" [("class", highlightClass), ("data-annotation-id", "a1")]
            [.text ['y']]],
         .elem "span" [("class", highlightClass), ("data-annotation-id", "a1")]
          [.text ['z']]], true) :=
  ⟨rfl, rfl⟩

end Annotator
